import Mathlib

/-!
# Verification of the core voting engine (`src/backend/voting.py`)

This file gives a shallow embedding, in Lean 4, of the seat-allocation
engine of the repository: the divisor-sequence generators, the
per-constituency highest-averages allocation `constituency_seat_allocation`,
the primary apportionment over all constituencies, the two
threshold-elimination entry points, and the `Election` orchestrator's
`run` pipeline.

Modelling conventions:
* Python numbers (ints and the floats produced by true division) are
  modelled as exact rationals `ℚ`; integer seat counts are `ℕ`.
* A Python generator of divisors (`dhondt_gen`, `sainte_lague_gen`,
  `swedish_sainte_lague_gen`) is modelled as the stream of its yielded
  values, a function `ℕ → ℚ` sending `k` to the `k`-th yielded value
  (0-indexed).  The per-contestant generator state (`gens[j]` together
  with the number of `next` calls already made) is modelled by the
  explicit cursor `posn`.
* Fallible code (Python raising `ZeroDivisionError` / `IndexError`) is
  modelled with `Option`: `none` is an uncaught exception, no result.
* Python's `max(list)` and `list.index(x)` are modelled by `pyMax` and
  `pyIndex` below (first index achieving the value).
-/

/-- Python's `max` on a (nonempty) list of rationals; `0` is a dummy value
for the empty list, on which Python raises instead. -/
def pyMax : List ℚ → ℚ
  | [] => 0
  | x :: xs => xs.foldl max x

/-- Python's `list.index(x)`: the first index whose entry equals `x`
(the list length as a dummy when `x` does not occur, where Python raises). -/
def pyIndex : List ℚ → ℚ → ℕ
  | [], _ => 0
  | y :: ys, x => if y = x then 0 else pyIndex ys x + 1

/-- Stream of `dhondt_gen` from `voting.py`: yields 1, 2, 3, 4, … -/
def dhondt_gen (k : ℕ) : ℚ := k + 1

/-- Stream of `sainte_lague_gen` from `voting.py`: yields 1, 3, 5, 7, … -/
def sainte_lague_gen (k : ℕ) : ℚ := 2 * k + 1

/-- Stream of `swedish_sainte_lague_gen` from `voting.py`: yields 1.4, 3, 5, 7, …
(`1.4` is the exact rational `7/5`). -/
def swedish_sainte_lague_gen : ℕ → ℚ
  | 0 => 7 / 5
  | k + 1 => 2 * (k + 1) + 1

/-- One audit record of `constituency_seat_allocation`'s `rounds` list:
the winning quotient, the winner's index and the divisor standing next to
the winner when it won.  (The Python dict also stores a reference to the
mutable `alloc_votes` list; every stored reference aliases the same list,
so that field carries no per-round information and is omitted.) -/
structure Round where
  maxval : ℚ
  winner : ℕ
  divisor : ℚ
deriving DecidableEq

/-- The loop state of `constituency_seat_allocation`: the current
quotients (`alloc_votes`), the current divisor standing next to each
contestant (`divisors`), the number of divisor terms each contestant's
generator has yielded so far (`posn`, the generator cursor), the winners
so far (`seats`) and the audit records (`rounds`). -/
structure AllocState where
  allocVotes : List ℚ
  divisors : List ℚ
  posn : List ℕ
  seats : List ℕ
  rounds : List Round
deriving DecidableEq

/-- The body of the `for i in range(num_seats)` loop of
`constituency_seat_allocation`: pick the first index with the maximal
current quotient, record the round, advance only that contestant's
divisor and recompute its quotient as `votes / new divisor`. -/
def allocRound (v : List ℚ) (gen : ℕ → ℚ) (s : AllocState) : AllocState :=
  let maxval := pyMax s.allocVotes
  let idx := pyIndex s.allocVotes maxval
  let r : Round := ⟨maxval, idx, s.divisors.getD idx 0⟩
  let d := gen (s.posn.getD idx 0)
  { allocVotes := s.allocVotes.set idx (v.getD idx 0 / d)
    divisors := s.divisors.set idx d
    posn := s.posn.set idx (s.posn.getD idx 0 + 1)
    seats := s.seats ++ [idx]
    rounds := s.rounds ++ [r] }

/-- The state before the loop: `alloc_votes` is a copy of the raw votes,
each contestant's generator has yielded exactly its first term. -/
def allocInit (v : List ℚ) (gen : ℕ → ℚ) : AllocState :=
  { allocVotes := v
    divisors := v.map (fun _ => gen 0)
    posn := v.map (fun _ => 1)
    seats := []
    rounds := [] }

/-- The state after `t` iterations of the loop. -/
def allocIter (v : List ℚ) (gen : ℕ → ℚ) : ℕ → AllocState
  | 0 => allocInit v gen
  | t + 1 => allocRound v gen (allocIter v gen t)

/-- Embedding of `constituency_seat_allocation(v_votes, num_seats, gen)` from
`voting.py`: returns the audit `rounds` and the list `seats` of winning
contestant indices, one per awarded seat, in award order. -/
def constituency_seat_allocation (v : List ℚ) (numSeats : ℕ) (gen : ℕ → ℚ) :
    List Round × List ℕ :=
  ((allocIter v gen numSeats).rounds, (allocIter v gen numSeats).seats)

/-! ## The quotient view of the allocation loop

After `t` rounds, contestant `j`'s entry of `alloc_votes` is its raw
votes while it has won no seat, and `votes / gen c` after its `c`-th win
(the code never divides by the generator's first term `gen 0`). -/

/-- The quotient contestant `j` competes with once it holds `c` seats. -/
def quotAt (v : List ℚ) (gen : ℕ → ℚ) (j c : ℕ) : ℚ :=
  if c = 0 then v.getD j 0 else v.getD j 0 / gen c

/-- Selection step on seat-count vectors: the first index `j < P`
maximising `q j (c j)` (mirrors `alloc_votes.index(max(alloc_votes))`). -/
def apSel (q : ℕ → ℕ → ℚ) (P : ℕ) (c : ℕ → ℕ) : ℕ :=
  pyIndex ((List.range P).map (fun j => q j (c j)))
    (pyMax ((List.range P).map (fun j => q j (c j))))

/-- The seat-count vector after `t` rounds of repeatedly awarding a seat
to the selected contestant. -/
def apIter (q : ℕ → ℕ → ℚ) (P : ℕ) : ℕ → (ℕ → ℕ)
  | 0 => fun _ => 0
  | t + 1 =>
      fun j =>
        if j = apSel q P (apIter q P t) then apIter q P t j + 1 else apIter q P t j

/-! ## Ordering of (contestant, seat-count) pairs by quotient

For the monotonicity proof, each seat award is identified with a pair
`(j, c)`: contestant `j` winning its `(c+1)`-st seat.  `pairBefore q a b`
says the award `a` is picked before `b`: its quotient is strictly larger,
or the quotients tie and `a` wins the index-ascending tie-break. -/

/-- Pair `a` is awarded strictly before `b` by the loop's selection rule. -/
def pairBefore (q : ℕ → ℕ → ℚ) (a b : ℕ × ℕ) : Prop :=
  q b.1 b.2 < q a.1 a.2 ∨
    (q a.1 a.2 = q b.1 b.2 ∧ (a.1 < b.1 ∨ (a.1 = b.1 ∧ a.2 < b.2)))

instance instDecidablePairBefore (q : ℕ → ℕ → ℚ) (a b : ℕ × ℕ) :
    Decidable (pairBefore q a b) :=
  decidable_of_iff
    (q b.1 b.2 < q a.1 a.2 ∨
      (q a.1 a.2 = q b.1 b.2 ∧ (a.1 < b.1 ∨ (a.1 = b.1 ∧ a.2 < b.2)))) Iff.rfl

/-- The finite universe of awards relevant to an `n`-round run among `P`
contestants. -/
def pairU (P n : ℕ) : Finset (ℕ × ℕ) := (Finset.range P) ×ˢ (Finset.range n)

/-- Number of awards picked strictly before `u`. -/
def pairRank (q : ℕ → ℕ → ℚ) (P n : ℕ) (u : ℕ × ℕ) : ℕ :=
  ((pairU P n).filter (fun w => pairBefore q w u)).card

/-- The set of awards made once the seat counts are `c`. -/
def awarded (P n : ℕ) (c : ℕ → ℕ) : Finset (ℕ × ℕ) :=
  (pairU P n).filter (fun u => u.2 < c u.1)

/-! ## Primary apportionment over all constituencies -/

/-- The per-constituency winner lists produced inside
`Election.primary_apportionment`'s loop (each is appended to
`self.order`). -/
def primary_seats_lists (m_votes : List (List ℚ)) (const : List ℕ) (gen : ℕ → ℚ) :
    List (List ℕ) :=
  (List.range const.length).map
    (fun i => (constituency_seat_allocation (m_votes.getD i []) (const.getD i 0) gen).2)

/-- Embedding of `Election.primary_apportionment(m_votes)` from `voting.py`: for each
constituency run `constituency_seat_allocation` with its vote row and its
constituency-seat count, turn the winner list into per-party seat counts
(`[seats.count(p) for p in range(len(parties))]`), and total the columns
into the national seat-count vector `v_seatcount`.  The rules lookups are
passed as arguments (`const` = `constituency_seats`, `numParties` =
`len(parties)`). -/
def primary_apportionment (m_votes : List (List ℚ)) (const : List ℕ)
    (numParties : ℕ) (gen : ℕ → ℚ) : List (List ℕ) × List ℕ :=
  let m_allocations := (primary_seats_lists m_votes const gen).map
    (fun seats => (List.range numParties).map (fun p => seats.count p))
  let v_seatcount := (List.range numParties).map
    (fun p => (m_allocations.map (fun x => x.getD p 0)).sum)
  (m_allocations, v_seatcount)

/-! ## Threshold elimination -/

/-- The `totals` list computed identically by both threshold functions:
`[sum([x[i] for x in votes]) for i in range(N)]`. -/
def column_totals (votes : List (List ℚ)) (N : ℕ) : List ℚ :=
  (List.range N).map (fun i => (votes.map (fun x => x.getD i 0)).sum)

/-- Embedding of `threshold_elimination_totals(votes, threshold)` from `voting.py`.
`none` models the uncaught Python exception: `IndexError` on an empty
votes list (`votes[0]`), or `ZeroDivisionError` when the grand total of
votes is 0 (a division only runs when `N ≠ 0`, i.e. `totals` is
nonempty). -/
def threshold_elimination_totals (votes : List (List ℚ)) (threshold : ℚ) :
    Option (List ℚ) :=
  let N := (votes.headD []).length
  let totals := column_totals votes N
  let country_total := totals.sum
  if votes = [] ∨ (N ≠ 0 ∧ country_total = 0) then none
  else
    let percent := totals.map (fun t => t / country_total)
    some ((List.range N).map
      (fun i => if threshold < percent.getD i 0 then totals.getD i 0 else 0))

/-- Embedding of `threshold_elimination_constituencies(votes, threshold,
party_seats, priors)` from `voting.py`.  The optional Python arguments default to
`None`; `if not (priors and party_seats)` skips the second pass when
either is `None` **or an empty list** (Python truthiness).  `none` models
the uncaught exception exactly as in `threshold_elimination_totals`. -/
def threshold_elimination_constituencies (votes : List (List ℚ)) (threshold : ℚ)
    (party_seats : Option (List ℕ)) (priors : Option (List (List ℕ))) :
    Option (List (List ℚ)) :=
  let N := (votes.headD []).length
  let totals := column_totals votes N
  let country_total := totals.sum
  if votes = [] ∨ (N ≠ 0 ∧ country_total = 0) then none
  else
    let percent := totals.map (fun t => t / country_total)
    let m_votes := votes.map (fun c =>
      (List.range N).map
        (fun i => if threshold < percent.getD i 0 then c.getD i 0 else 0))
    match party_seats, priors with
    | some ps, some pm =>
        if ps = [] ∨ pm = [] then some m_votes
        else
          some (m_votes.map (fun row =>
            (List.range N).map (fun j =>
              if ps.getD j 0 = (pm.map (fun m => m.getD j 0)).sum then 0
              else row.getD j 0)))
    | _, _ => some m_votes

/-! ## Apportion1D (national level) -/

/-- Modelled from the spec: the quotients used by `apportion1d`.  The
function `apportion1d` itself lives in the `apportion` module, which is
not under `src/`; §4.2 of the spec specifies that a contestant holding
`a` seats competes with `votes / divisor(a+1)`, i.e. `v / gen a` with the
0-indexed stream `gen` (so a seatless contestant is divided by the first
term — `1.4` under the Nordic variant). -/
def ap1dQuots (v : List ℚ) (gen : ℕ → ℚ) (alloc : List ℕ) : List ℚ :=
  (List.range v.length).map (fun j => v.getD j 0 / gen (alloc.getD j 0))

/-- Modelled from the spec: one award round of `apportion1d` (§4.2):
award one seat to the first contestant with the maximal quotient and
advance only its divisor pointer. -/
def ap1dStep (v : List ℚ) (gen : ℕ → ℚ) (alloc : List ℕ) : List ℕ :=
  let quots := ap1dQuots v gen alloc
  let w := pyIndex quots (pyMax quots)
  alloc.set w (alloc.getD w 0 + 1)

/-- Modelled from the spec: `apportion1d(v_votes, num_seats, priors, gen)`
(§4.2, module `apportion` absent from `src/`): start from the prior
allocation (divisor sequences advanced past it), repeat the award round
`num_seats` times, and return the final allocation vector together with
the per-contestant last divisor value consumed. -/
def apportion1d (v : List ℚ) (num_seats : ℕ) (priors : List ℕ) (gen : ℕ → ℚ) :
    List ℕ × List ℚ :=
  let final := (List.range num_seats).foldl (fun a _ => ap1dStep v gen a) priors
  (final, (List.range v.length).map (fun j => gen (final.getD j 0)))

/-! ## The `Election` orchestrator -/

/-- The slice of `ElectionRules` read by `Election.run` and its stages.
`num_parties` stands for `len(rules["parties"])` (only the length of the
party list is ever used by the modelled fragment); the divider entries
hold the generator streams selected by `get_generator`.
`adjustment_method` is the function looked up in `ADJUSTMENT_METHODS`;
the `methods` module is not under `src/`, and per §4.6 of the spec every
strategy is a pure function of the argument snapshot
`(m_votes_eliminated, v_total_seats, v_adjustment_seats, m_allocations,
divisor generator, threshold, orig_votes)`, which is how it is typed
here. -/
structure ElectionRules where
  primary_divider : ℕ → ℚ
  adjustment_divider : ℕ → ℚ
  adjustment_threshold : ℚ
  constituency_seats : List ℕ
  constituency_adjustment_seats : List ℕ
  num_parties : ℕ
  adjustment_method : List (List ℚ) → List ℕ → List ℕ → List (List ℕ) →
    (ℕ → ℚ) → ℚ → List (List ℚ) → List (List ℕ)

/-- The state of an `Election` instance: the constructor arguments
(`m_votes`, `rules`), the cross-run accumulator `order` (initialised `[]`
in `__init__` and only ever appended to), and the derived fields set by
`run()` (modelled with `[]`/`0` defaults before the first run, since the
modelled fragment never reads them before assigning them). -/
structure Election where
  m_votes : List (List ℚ)
  rules : ElectionRules
  order : List (List ℕ)
  m_allocations : List (List ℕ)
  v_cur_allocations : List ℕ
  v_total_seats : List ℕ
  total_seats : ℕ
  v_votes_eliminated : List ℚ
  m_votes_eliminated : List (List ℚ)
  v_adjustment_seats : List ℕ
  results : List (List ℕ)

/-- Embedding of `Election.__init__(rules, votes)`. -/
def Election.new (rules : ElectionRules) (votes : List (List ℚ)) : Election :=
  { m_votes := votes
    rules := rules
    order := []
    m_allocations := []
    v_cur_allocations := []
    v_total_seats := []
    total_seats := 0
    v_votes_eliminated := []
    m_votes_eliminated := []
    v_adjustment_seats := []
    results := [] }

/-- Embedding of `Election.run()` from `voting.py`: compute the total-seat vectors,
run primary apportionment (which appends the per-constituency winner
lists to `self.order`), threshold elimination (both entry points),
adjustment-seat determination via `apportion1d`, and the configured
adjustment method; `none` models an uncaught exception from threshold
elimination.  All derived fields are (re)assigned from `m_votes` and
`rules` alone; only `order` is appended to rather than reassigned. -/
def Election.run (e : Election) : Option Election :=
  let v_total_seats := List.zipWith (fun a b => a + b)
    e.rules.constituency_seats e.rules.constituency_adjustment_seats
  let total_seats := v_total_seats.sum
  let pair := primary_apportionment e.m_votes e.rules.constituency_seats
    e.rules.num_parties e.rules.primary_divider
  let orders := primary_seats_lists e.m_votes e.rules.constituency_seats
    e.rules.primary_divider
  match threshold_elimination_totals e.m_votes e.rules.adjustment_threshold,
      threshold_elimination_constituencies e.m_votes e.rules.adjustment_threshold
        none none with
  | some v_elim, some m_elim =>
      let v_adj := (apportion1d v_elim total_seats pair.2 e.rules.adjustment_divider).1
      some { m_votes := e.m_votes
             rules := e.rules
             order := e.order ++ orders
             m_allocations := pair.1
             v_cur_allocations := pair.2
             v_total_seats := v_total_seats
             total_seats := total_seats
             v_votes_eliminated := v_elim
             m_votes_eliminated := m_elim
             v_adjustment_seats := v_adj
             results := e.rules.adjustment_method m_elim v_total_seats v_adj
               pair.1 e.rules.adjustment_divider e.rules.adjustment_threshold
               e.m_votes }
  | _, _ => none


/-! ## Basic facts about `pyMax` and `pyIndex` -/

theorem foldl_max_mem (xs : List ℚ) (a : ℚ) : xs.foldl max a = a ∨ xs.foldl max a ∈ xs := by
  induction xs generalizing a with
  | nil => exact Or.inl rfl
  | cons x xs ih =>
      rcases ih (max a x) with h | h
      · rcases max_choice a x with h' | h'
        · exact Or.inl (by simp only [List.foldl]; rw [h, h'])
        · refine Or.inr ?_
          simp only [List.foldl]
          rw [h, h']
          exact List.mem_cons_self x xs
      · exact Or.inr (List.mem_cons_of_mem _ h)

theorem le_foldl_max_init (xs : List ℚ) (a : ℚ) : a ≤ xs.foldl max a := by
  induction xs generalizing a with
  | nil => exact le_rfl
  | cons x xs ih => exact le_trans (le_max_left a x) (ih (max a x))

theorem le_foldl_max (xs : List ℚ) (a : ℚ) : ∀ x ∈ xs, x ≤ xs.foldl max a := by
  induction xs generalizing a with
  | nil => intro x hx; cases hx
  | cons y ys ih =>
      intro x hx
      rcases List.mem_cons.1 hx with rfl | hx
      · exact le_trans (le_max_right a x) (le_foldl_max_init ys (max a x))
      · exact ih (max a y) x hx

theorem pyMax_mem (l : List ℚ) (hl : l ≠ []) : pyMax l ∈ l := by
  cases l with
  | nil => exact absurd rfl hl
  | cons x xs =>
      rcases foldl_max_mem xs x with h | h
      · simp [pyMax, h]
      · simp [pyMax]
        exact Or.inr (by simpa using h)

theorem le_pyMax (l : List ℚ) : ∀ x ∈ l, x ≤ pyMax l := by
  cases l with
  | nil => intro x hx; cases hx
  | cons y ys =>
      intro x hx
      rcases List.mem_cons.1 hx with rfl | hx
      · exact le_foldl_max_init ys x
      · exact le_foldl_max ys y x hx

theorem pyIndex_lt_length (l : List ℚ) (x : ℚ) (h : x ∈ l) : pyIndex l x < l.length := by
  induction l with
  | nil => cases h
  | cons y ys ih =>
      by_cases hy : y = x
      · simp [pyIndex, hy]
      · rcases List.mem_cons.1 h with rfl | h'
        · exact absurd rfl hy
        · simpa [pyIndex, hy] using ih h'

theorem pyIndex_getD (l : List ℚ) (x : ℚ) (h : x ∈ l) : l.getD (pyIndex l x) 0 = x := by
  induction l with
  | nil => cases h
  | cons y ys ih =>
      by_cases hy : y = x
      · simp [pyIndex, hy]
      · rcases List.mem_cons.1 h with rfl | h'
        · exact absurd rfl hy
        · simpa [pyIndex, hy] using ih h'

theorem pyIndex_first (l : List ℚ) (x : ℚ) :
    ∀ k, k < pyIndex l x → l.getD k 0 ≠ x := by
  induction l with
  | nil => intro k hk; simp [pyIndex] at hk
  | cons y ys ih =>
      intro k hk
      by_cases hy : y = x
      · simp [pyIndex, hy] at hk
      · cases k with
        | zero => simpa using hy
        | succ k =>
            simp only [pyIndex, if_neg hy] at hk
            exact ih k (Nat.lt_of_succ_lt_succ hk)

/-! ## Utilities for lists built as `(List.range P).map f` -/

theorem getD_range_map {α : Type} (P : ℕ) (f : ℕ → α) (j : ℕ) (d : α) (hj : j < P) :
    ((List.range P).map f).getD j d = f j := by
  rw [List.getD_eq_getElem _ _ (by simpa using hj)]
  simp

theorem getD_range_map_ge {α : Type} (P : ℕ) (f : ℕ → α) (j : ℕ) (d : α) (hj : P ≤ j) :
    ((List.range P).map f).getD j d = d := by
  apply List.getD_eq_default
  simpa using hj

theorem range_map_set {α : Type} (P : ℕ) (f : ℕ → α) (w : ℕ) (y : α) (_hw : w < P) :
    ((List.range P).map f).set w y =
      (List.range P).map (fun j => if j = w then y else f j) := by
  apply List.ext_getElem
  · simp
  · intro k h1 h2
    have hk : k < P := by simpa using h2
    rw [List.getElem_set]
    by_cases hkw : w = k
    · simp [hkw]
    · simp [hkw, Ne.symm hkw, hk]

theorem self_eq_range_map {α : Type} (l : List α) (d : α) :
    (List.range l.length).map (fun j => l.getD j d) = l := by
  apply List.ext_getElem
  · simp
  · intro k h1 h2
    simp [List.getElem?_eq_getElem h2]

theorem apSel_lt (q : ℕ → ℕ → ℚ) (P : ℕ) (c : ℕ → ℕ) (hP : 0 < P) :
    apSel q P c < P := by
  have hne : (List.range P).map (fun j => q j (c j)) ≠ [] := by
    simp [List.map_eq_nil_iff, List.range_eq_nil]
    omega
  have := pyIndex_lt_length _ _ (pyMax_mem _ hne)
  simpa using this

theorem apSel_getD (q : ℕ → ℕ → ℚ) (P : ℕ) (c : ℕ → ℕ) (hP : 0 < P) :
    q (apSel q P c) (c (apSel q P c)) =
      pyMax ((List.range P).map (fun j => q j (c j))) := by
  have hne : (List.range P).map (fun j => q j (c j)) ≠ [] := by
    simp [List.map_eq_nil_iff, List.range_eq_nil]
    omega
  have hlt : apSel q P c < P := apSel_lt q P c hP
  have h := pyIndex_getD _ _ (pyMax_mem ((List.range P).map (fun j => q j (c j))) hne)
  exact (getD_range_map P _ (apSel q P c) 0 hlt).symm.trans h

theorem apSel_is_max (q : ℕ → ℕ → ℚ) (P : ℕ) (c : ℕ → ℕ) (hP : 0 < P) :
    ∀ j < P, q j (c j) ≤ q (apSel q P c) (c (apSel q P c)) := by
  intro j hj
  rw [apSel_getD q P c hP]
  exact le_pyMax _ _ (List.mem_map.2 ⟨j, by simpa using hj, rfl⟩)

theorem apSel_first (q : ℕ → ℕ → ℚ) (P : ℕ) (c : ℕ → ℕ) (hP : 0 < P) :
    ∀ j < apSel q P c, q j (c j) < q (apSel q P c) (c (apSel q P c)) := by
  intro j hj
  have hjP : j < P := lt_trans hj (apSel_lt q P c hP)
  have hne := pyIndex_first ((List.range P).map (fun k => q k (c k)))
    (pyMax ((List.range P).map (fun k => q k (c k)))) j hj
  rw [getD_range_map _ _ _ _ hjP] at hne
  rcases lt_or_eq_of_le (apSel_is_max q P c hP j hjP) with h | h
  · exact h
  · exact absurd (by rw [h, apSel_getD q P c hP]) hne

theorem apIter_le (q : ℕ → ℕ → ℚ) (P : ℕ) (t j : ℕ) : apIter q P t j ≤ t := by
  induction t with
  | zero => simp [apIter]
  | succ t ih =>
      simp only [apIter]
      split
      · omega
      · omega

/-- The loop invariant of `constituency_seat_allocation`: after `t`
rounds, each contestant's entry of `alloc_votes` is the quotient for its
current seat count, the generator cursors are one past the seat counts,
and the seat counts are the abstract iteration `apIter`. -/
theorem allocIter_bridge (v : List ℚ) (g : ℕ → ℚ) (hv : v ≠ []) (t : ℕ) :
    (allocIter v g t).allocVotes =
      (List.range v.length).map
        (fun j => quotAt v g j (apIter (quotAt v g) v.length t j)) ∧
    (allocIter v g t).posn =
      (List.range v.length).map (fun j => apIter (quotAt v g) v.length t j + 1) ∧
    ∀ j, (allocIter v g t).seats.count j = apIter (quotAt v g) v.length t j := by
  have hP : 0 < v.length := List.length_pos.2 hv
  induction t with
  | zero =>
      refine ⟨?_, ?_, ?_⟩
      · show v = _
        simp only [apIter, quotAt, if_pos]
        exact (self_eq_range_map v 0).symm
      · show v.map (fun _ => 1) = _
        simp only [apIter]
        rw [List.map_const']
        norm_num [List.map_const']
      · intro j
        show List.count j [] = _
        simp [apIter]
  | succ t ih =>
      obtain ⟨h1, h2, h3⟩ := ih
      have hw : apSel (quotAt v g) v.length (apIter (quotAt v g) v.length t) < v.length :=
        apSel_lt _ _ _ hP
      have hidx : pyIndex (allocIter v g t).allocVotes (pyMax (allocIter v g t).allocVotes)
          = apSel (quotAt v g) v.length (apIter (quotAt v g) v.length t) := by
        rw [h1]; rfl
      have hposn : (allocIter v g t).posn.getD
          (apSel (quotAt v g) v.length (apIter (quotAt v g) v.length t)) 0
          = apIter (quotAt v g) v.length t
              (apSel (quotAt v g) v.length (apIter (quotAt v g) v.length t)) + 1 := by
        rw [h2, getD_range_map _ _ _ _ hw]
      refine ⟨?_, ?_, ?_⟩
      · show (allocRound v g (allocIter v g t)).allocVotes = _
        simp only [allocRound, hidx, hposn]
        rw [h1, range_map_set _ _ _ _ hw]
        refine List.map_congr_left ?_
        intro j hj
        simp only [apIter]
        by_cases hjw : j = apSel (quotAt v g) v.length (apIter (quotAt v g) v.length t)
        · subst hjw
          simp [quotAt]
        · simp [hjw]
      · show (allocRound v g (allocIter v g t)).posn = _
        simp only [allocRound, hidx, hposn]
        rw [h2, range_map_set _ _ _ _ hw]
        refine List.map_congr_left ?_
        intro j hj
        simp only [apIter]
        by_cases hjw : j = apSel (quotAt v g) v.length (apIter (quotAt v g) v.length t)
        · subst hjw
          simp
        · simp [hjw]
      · intro j
        show ((allocIter v g t).seats ++
            [pyIndex (allocIter v g t).allocVotes (pyMax (allocIter v g t).allocVotes)]).count j = _
        rw [hidx]
        simp only [apIter, List.count_append]
        by_cases hjw : j = apSel (quotAt v g) v.length (apIter (quotAt v g) v.length t)
        · simp [hjw, h3]
        · simp [hjw, h3 j]

/-! ## Simple loop invariants -/

theorem allocVotes_length (v : List ℚ) (g : ℕ → ℚ) (t : ℕ) :
    (allocIter v g t).allocVotes.length = v.length := by
  induction t with
  | zero => rfl
  | succ t ih =>
      show (allocRound v g (allocIter v g t)).allocVotes.length = v.length
      simp [allocRound, ih]

theorem seats_length (v : List ℚ) (g : ℕ → ℚ) (t : ℕ) :
    (allocIter v g t).seats.length = t := by
  induction t with
  | zero => rfl
  | succ t ih =>
      show (allocRound v g (allocIter v g t)).seats.length = t + 1
      simp [allocRound, ih]

theorem seats_mem_lt (v : List ℚ) (g : ℕ → ℚ) (hv : v ≠ []) (t : ℕ) :
    ∀ x ∈ (allocIter v g t).seats, x < v.length := by
  induction t with
  | zero => intro x hx; cases hx
  | succ t ih =>
      intro x hx
      have hne : (allocIter v g t).allocVotes ≠ [] := by
        intro h
        have := allocVotes_length v g t
        rw [h] at this
        exact hv (List.eq_nil_of_length_eq_zero this.symm)
      rcases List.mem_append.1 hx with h | h
      · exact ih x h
      · have hx0 : x = pyIndex (allocIter v g t).allocVotes
            (pyMax (allocIter v g t).allocVotes) := by simpa using h
        rw [hx0]
        have := pyIndex_lt_length _ _ (pyMax_mem _ hne)
        rwa [allocVotes_length v g t] at this

/-! ## Claim C9: tie-break by first index achieving the maximum -/

/-- C9. In every executed round `t < n` of
`constituency_seat_allocation`, the seat is appended for the contestant
index `pyIndex alloc (pyMax alloc)`: it achieves the maximal current
quotient and every smaller index is strictly below that maximum, so ties
are broken to the lowest index and the allocation (a pure function) is
deterministic. -/
theorem csa_round_winner_first (v : List ℚ) (g : ℕ → ℚ) (n t : ℕ)
    (hv : v ≠ []) (_ht : t < n) :
    (allocIter v g (t + 1)).seats =
      (allocIter v g t).seats ++
        [pyIndex (allocIter v g t).allocVotes (pyMax (allocIter v g t).allocVotes)] ∧
    (allocIter v g t).allocVotes.getD
        (pyIndex (allocIter v g t).allocVotes (pyMax (allocIter v g t).allocVotes)) 0 =
      pyMax (allocIter v g t).allocVotes ∧
    ∀ k < pyIndex (allocIter v g t).allocVotes (pyMax (allocIter v g t).allocVotes),
      (allocIter v g t).allocVotes.getD k 0 < pyMax (allocIter v g t).allocVotes := by
  have hne : (allocIter v g t).allocVotes ≠ [] := by
    intro h
    have := allocVotes_length v g t
    rw [h] at this
    exact hv (List.eq_nil_of_length_eq_zero this.symm)
  refine ⟨rfl, pyIndex_getD _ _ (pyMax_mem _ hne), ?_⟩
  intro k hk
  have hkl : k < (allocIter v g t).allocVotes.length :=
    lt_trans hk (pyIndex_lt_length _ _ (pyMax_mem _ hne))
  have hmem : (allocIter v g t).allocVotes.getD k 0 ∈ (allocIter v g t).allocVotes := by
    rw [List.getD_eq_getElem _ _ hkl]
    exact List.getElem_mem hkl
  rcases lt_or_eq_of_le (le_pyMax _ _ hmem) with h | h
  · exact h
  · exact absurd h (pyIndex_first _ _ k hk)

/-- Witness for C9 at votes `[1, 2]`, one seat: the winner of round 0 is
contestant 1 (quotient 2), the first index achieving the maximum. -/
theorem csa_round_winner_first_witness :
    (allocIter [1, 2] dhondt_gen (0 + 1)).seats =
      (allocIter [1, 2] dhondt_gen 0).seats ++
        [pyIndex (allocIter [1, 2] dhondt_gen 0).allocVotes
          (pyMax (allocIter [1, 2] dhondt_gen 0).allocVotes)] ∧
    (allocIter [1, 2] dhondt_gen 0).allocVotes.getD
        (pyIndex (allocIter [1, 2] dhondt_gen 0).allocVotes
          (pyMax (allocIter [1, 2] dhondt_gen 0).allocVotes)) 0 =
      pyMax (allocIter [1, 2] dhondt_gen 0).allocVotes ∧
    ∀ k < pyIndex (allocIter [1, 2] dhondt_gen 0).allocVotes
        (pyMax (allocIter [1, 2] dhondt_gen 0).allocVotes),
      (allocIter [1, 2] dhondt_gen 0).allocVotes.getD k 0 <
        pyMax (allocIter [1, 2] dhondt_gen 0).allocVotes :=
  csa_round_winner_first [1, 2] dhondt_gen 1 0 (by simp) (by norm_num)

/-! ## Claim C1: zero-vote contestants -/

theorem quotAt_pos (v : List ℚ) (g : ℕ → ℚ) (hg : ∀ m, 1 ≤ m → 0 < g m)
    (j : ℕ) (hvj : 0 < v.getD j 0) (c : ℕ) : 0 < quotAt v g j c := by
  cases c with
  | zero => exact hvj
  | succ c =>
      have h : quotAt v g j (c + 1) = v.getD j 0 / g (c + 1) := by
        simp only [quotAt, Nat.succ_ne_zero, if_false]
      rw [h]
      exact div_pos hvj (hg (c + 1) (by omega))

theorem quotAt_of_zero (v : List ℚ) (g : ℕ → ℚ) (j : ℕ) (hvj : v.getD j 0 = 0) (c : ℕ) :
    quotAt v g j c = 0 := by
  cases c with
  | zero => exact hvj
  | succ c =>
      simp only [quotAt, Nat.succ_ne_zero, if_false]
      rw [hvj, zero_div]

/-- C1 (amended). Whenever some contestant has positive votes, a
contestant with 0 votes never wins a seat (its quotient stays 0, below
the positive maximum), and the allocation terminates for every input; but
on an input where every contestant has 0 votes, the `max`/`index` pair
selects contestant 0 in every round, so all `n` seats go to contestant 0
instead of none being awarded. -/
theorem csa_zero_votes (v : List ℚ) (g : ℕ → ℚ) (n : ℕ)
    (hg : ∀ m, 1 ≤ m → 0 < g m) :
    ((∃ k, k < v.length ∧ 0 < v.getD k 0) →
      ∀ j, v.getD j 0 = 0 → (constituency_seat_allocation v n g).2.count j = 0) ∧
    (v ≠ [] → (∀ x ∈ v, x = 0) →
      (constituency_seat_allocation v n g).2 = List.replicate n 0) := by
  constructor
  · rintro ⟨k, hk, hkpos⟩ j hj
    have hv : v ≠ [] := by
      intro h
      rw [h] at hk
      exact absurd hk (by simp)
    have hP : 0 < v.length := List.length_pos.2 hv
    have hzero : ∀ t, apIter (quotAt v g) v.length t j = 0 := by
      intro t
      induction t with
      | zero => rfl
      | succ t ih =>
          simp only [apIter]
          have hjw : j ≠ apSel (quotAt v g) v.length (apIter (quotAt v g) v.length t) := by
            intro hEq
            have hmax := apSel_is_max (quotAt v g) v.length
              (apIter (quotAt v g) v.length t) hP k hk
            rw [← hEq] at hmax
            have h0 : quotAt v g j (apIter (quotAt v g) v.length t j) = 0 :=
              quotAt_of_zero v g j hj _
            have hkq : 0 < quotAt v g k (apIter (quotAt v g) v.length t k) :=
              quotAt_pos v g hg k hkpos _
            rw [h0] at hmax
            exact absurd (lt_of_lt_of_le hkq hmax) (lt_irrefl 0)
          simp [hjw, ih]
    have hb := (allocIter_bridge v g hv n).2.2 j
    show (allocIter v g n).seats.count j = 0
    rw [hb, hzero n]
  · intro hv hz
    have hP : 0 < v.length := List.length_pos.2 hv
    have hgd : ∀ j, v.getD j 0 = 0 := by
      intro j
      by_cases hj : j < v.length
      · rw [List.getD_eq_getElem _ _ hj]
        exact hz _ (List.getElem_mem hj)
      · exact List.getD_eq_default _ _ (le_of_not_lt hj)
    show (allocIter v g n).seats = List.replicate n 0
    induction n with
    | zero => rfl
    | succ t ih =>
        have h1 := (allocIter_bridge v g hv t).1
        have hall : ∀ x ∈ (allocIter v g t).allocVotes, x = 0 := by
          rw [h1]
          intro x hx
          rcases List.mem_map.1 hx with ⟨j, _, rfl⟩
          exact quotAt_of_zero v g j (hgd j) _
        have hne : (allocIter v g t).allocVotes ≠ [] := by
          intro h
          have := allocVotes_length v g t
          rw [h] at this
          exact hv (List.eq_nil_of_length_eq_zero this.symm)
        have hmax0 : pyMax (allocIter v g t).allocVotes = 0 :=
          hall _ (pyMax_mem _ hne)
        obtain ⟨b, L, hbl⟩ := List.exists_cons_of_ne_nil hne
        have hb0 : b = 0 := hall b (by rw [hbl]; exact List.mem_cons_self b L)
        show (allocIter v g t).seats ++ [pyIndex (allocIter v g t).allocVotes
          (pyMax (allocIter v g t).allocVotes)] = List.replicate (t + 1) 0
        rw [hbl]
        have hpm : pyMax (b :: L) = 0 := by rw [← hbl]; exact hmax0
        have hidx0 : pyIndex (b :: L) 0 = 0 := by simp [pyIndex, hb0]
        rw [hpm, hidx0, ih, List.replicate_succ']

/-- Witness for C1 (amended), first conjunct: with votes `[0, 3]` and one
seat under d'Hondt, the zero-vote contestant 0 wins nothing. -/
theorem csa_zero_votes_witness :
    (∃ k, k < ([(0:ℚ), 3]).length ∧ 0 < [(0:ℚ), 3].getD k 0) ∧
    [(0:ℚ), 3].getD 0 0 = 0 ∧
    (constituency_seat_allocation [0, 3] 1 dhondt_gen).2.count 0 = 0 := by
  refine ⟨⟨1, by norm_num⟩, by norm_num, ?_⟩
  exact (csa_zero_votes [0, 3] dhondt_gen 1
    (fun m _ => by simp [dhondt_gen]; positivity)).1 ⟨1, by norm_num⟩ 0 (by norm_num)

/-- Counterexample to C1 as stated: on the all-zero two-contestant input
with one seat to award, contestant 0 — whose vote count is 0 — receives
the seat (`seats = [0]`), rather than every contestant receiving 0
seats. -/
theorem csa_zero_votes_counterexample :
    [(0:ℚ), 0].getD 0 0 = 0 ∧
    (constituency_seat_allocation [0, 0] 1 dhondt_gen).2 = [0] ∧
    (constituency_seat_allocation [0, 0] 1 dhondt_gen).2.count 0 = 1 := by
  norm_num [constituency_seat_allocation, allocIter, allocRound, allocInit,
    pyMax, pyIndex, dhondt_gen]

/-! ## Claim C2: the first divisor term is never applied

`alloc_votes` starts as the raw votes and the divisor advanced on a win
is `gen(pos)` with `pos ≥ 1`, so a seatless contestant competes with `v`,
not `v / gen 0`; the Nordic `1.4` is skipped. -/

/-- C2 (code bug exhibit). Under the Nordic Sainte-Laguë generator,
the pre-first-seat quotients of `constituency_seat_allocation` are the
raw votes `[14, 5]` (not `[14/1.4, 5/1.4] = [10, 25/7]`), and on votes
`[14, 5]` with 2 seats the code awards one seat to each contestant
(`seats = [0, 1]`), whereas the spec's rule `votes / divisor(prior+1)`
(as in `apportion1d`, modelled from the spec) awards both seats to
contestant 0. -/
theorem csa_swedish_skips_first_divisor :
    (allocInit [14, 5] swedish_sainte_lague_gen).allocVotes = [14, 5] ∧
    (14 : ℚ) / swedish_sainte_lague_gen 0 = 10 ∧
    (constituency_seat_allocation [14, 5] 2 swedish_sainte_lague_gen).2 = [0, 1] ∧
    (apportion1d [14, 5] 2 [0, 0] swedish_sainte_lague_gen).1 = [2, 0] := by
  refine ⟨rfl, by norm_num [swedish_sainte_lague_gen], ?_, ?_⟩
  · norm_num [constituency_seat_allocation, allocIter, allocRound, allocInit,
      pyMax, pyIndex, swedish_sainte_lague_gen]
  · norm_num [apportion1d, ap1dStep, ap1dQuots, pyMax, pyIndex,
      swedish_sainte_lague_gen, List.range_succ]

/-! ## Claim C3: primary apportionment row and column sums -/

theorem list_range_sum_eq {M : Type} [AddCommMonoid M] (P : ℕ) (f : ℕ → M) :
    ((List.range P).map f).sum = (Finset.range P).sum f := rfl

theorem sum_count_eq_length (s : List ℕ) (P : ℕ) (h : ∀ x ∈ s, x < P) :
    ((List.range P).map (fun p => s.count p)).sum = s.length := by
  rw [list_range_sum_eq]
  induction s with
  | nil => simp
  | cons a s ih =>
      have ha : a ∈ Finset.range P := Finset.mem_range.2 (h a (List.mem_cons_self a s))
      have ih' := ih (fun x hx => h x (List.mem_cons_of_mem a hx))
      calc (Finset.range P).sum (fun p => (a :: s).count p)
          = (Finset.range P).sum (fun p => s.count p + if a = p then 1 else 0) := by
            refine Finset.sum_congr rfl ?_
            intro p _
            simp [List.count_cons]
        _ = s.length + 1 := by
            rw [Finset.sum_add_distrib, ih',
              Finset.sum_ite_eq (Finset.range P) a (fun _ => 1), if_pos ha]
        _ = (a :: s).length := by simp

/-- C3. For a valid votes matrix (row count = constituency count,
every row of length `P > 0`), every row `i` of the primary allocation
matrix sums to exactly the constituency-seat count of constituency `i`
(adjustment seats excluded, hence at most the constituency's total
seats), and the returned national seat-count vector is the per-party
column sum of the matrix. -/
theorem primary_apportionment_spec (m_votes : List (List ℚ)) (const adj : List ℕ)
    (P : ℕ) (g : ℕ → ℚ) (hP : 0 < P)
    (hrows : m_votes.length = const.length)
    (hlen : ∀ r ∈ m_votes, r.length = P) :
    (∀ i < const.length,
      ((primary_apportionment m_votes const P g).1.getD i []).sum = const.getD i 0 ∧
      ((primary_apportionment m_votes const P g).1.getD i []).sum ≤
        const.getD i 0 + adj.getD i 0) ∧
    (∀ p < P, (primary_apportionment m_votes const P g).2.getD p 0 =
      ((primary_apportionment m_votes const P g).1.map (fun row => row.getD p 0)).sum) := by
  constructor
  · intro i hi
    have hiv : i < m_votes.length := by omega
    have hrow : (primary_apportionment m_votes const P g).1.getD i [] =
        (List.range P).map (fun p =>
          ((constituency_seat_allocation (m_votes.getD i []) (const.getD i 0) g).2).count p) := by
      simp only [primary_apportionment, primary_seats_lists]
      rw [List.map_map]
      rw [List.getD_eq_getElem _ _ (by simpa using hi)]
      simp
    have him : m_votes.getD i [] ∈ m_votes := by
      rw [List.getD_eq_getElem _ _ hiv]
      exact List.getElem_mem hiv
    have hrl : (m_votes.getD i []).length = P := hlen _ him
    have hvne : (m_votes.getD i []) ≠ [] := by
      intro h
      rw [h] at hrl
      simp at hrl
      omega
    have hb : ∀ x ∈ (constituency_seat_allocation (m_votes.getD i [])
        (const.getD i 0) g).2, x < P := by
      intro x hx
      have := seats_mem_lt (m_votes.getD i []) g hvne (const.getD i 0) x hx
      rwa [hrl] at this
    have hsum : ((primary_apportionment m_votes const P g).1.getD i []).sum =
        const.getD i 0 := by
      rw [hrow, sum_count_eq_length _ P hb]
      exact seats_length _ _ _
    exact ⟨hsum, by rw [hsum]; exact Nat.le_add_right _ _⟩
  · intro p hp
    simp only [primary_apportionment]
    rw [getD_range_map _ _ _ _ hp]

/-- Witness for C3 at the spec's d'Hondt example: one constituency with
votes `[100, 80, 20]`, 4 constituency seats and 1 adjustment seat. -/
theorem primary_apportionment_spec_witness :
    (∀ i < ([4] : List ℕ).length,
      ((primary_apportionment [[100, 80, 20]] [4] 3 dhondt_gen).1.getD i []).sum =
        ([4] : List ℕ).getD i 0 ∧
      ((primary_apportionment [[100, 80, 20]] [4] 3 dhondt_gen).1.getD i []).sum ≤
        ([4] : List ℕ).getD i 0 + ([1] : List ℕ).getD i 0) ∧
    (∀ p < 3, (primary_apportionment [[100, 80, 20]] [4] 3 dhondt_gen).2.getD p 0 =
      ((primary_apportionment [[100, 80, 20]] [4] 3 dhondt_gen).1.map
        (fun row => row.getD p 0)).sum) :=
  primary_apportionment_spec [[100, 80, 20]] [4] [1] 3 dhondt_gen (by norm_num)
    (by norm_num) (by intro r hr; rw [List.mem_singleton] at hr; rw [hr]; rfl)

/-! ## Threshold elimination: helper lemmas -/

theorem getD_map_div (l : List ℚ) (T : ℚ) (j : ℕ) (hj : j < l.length) :
    (l.map (fun t => t / T)).getD j 0 = l.getD j 0 / T := by
  rw [List.getD_eq_getElem _ _ (by simpa using hj), List.getElem_map,
    List.getD_eq_getElem _ _ hj]

theorem row_sum_eq (r : List ℚ) (N : ℕ) (hr : r.length = N) :
    ((List.range N).map (fun i => r.getD i 0)).sum = r.sum := by
  subst hr
  rw [self_eq_range_map r 0]

theorem column_totals_sum (votes : List (List ℚ)) (N : ℕ)
    (hlen : ∀ r ∈ votes, r.length = N) :
    (column_totals votes N).sum = (votes.map List.sum).sum := by
  simp only [column_totals]
  induction votes with
  | nil => simp
  | cons r rest ih =>
      have ih' := ih (fun x hx => hlen x (List.mem_cons_of_mem _ hx))
      have hr : r.length = N := hlen r (List.mem_cons_self r rest)
      simp only [List.map_cons, List.sum_cons]
      calc ((List.range N).map
            (fun i => (((r :: rest).map (fun x => x.getD i 0))).sum)).sum
          = ((List.range N).map
            (fun i => r.getD i 0 + ((rest.map (fun x => x.getD i 0))).sum)).sum := by
            refine congrArg List.sum (List.map_congr_left ?_)
            intro i _
            simp
        _ = ((List.range N).map (fun i => r.getD i 0)).sum +
            ((List.range N).map (fun i => ((rest.map (fun x => x.getD i 0))).sum)).sum := by
            rw [list_range_sum_eq, list_range_sum_eq, list_range_sum_eq,
              Finset.sum_add_distrib]
        _ = r.sum + (rest.map List.sum).sum := by rw [row_sum_eq r N hr, ih']

/-! ## Claim C4: national-totals threshold elimination -/

/-- C4. On a valid votes matrix with positive grand total,
`threshold_elimination_totals` returns the list whose `j`-th entry is the
party's national total exactly when its share of the grand total is
strictly greater than the threshold, and `0` otherwise (a share equal to
the threshold is eliminated, since the code requires `percent[i] >
threshold`). -/
theorem threshold_elimination_totals_spec (votes : List (List ℚ)) (θ : ℚ) (N : ℕ)
    (hne : votes ≠ []) (hlen : ∀ r ∈ votes, r.length = N)
    (hT : 0 < (column_totals votes N).sum) :
    ∃ l, threshold_elimination_totals votes θ = some l ∧ l.length = N ∧
      ∀ j < N, l.getD j 0 =
        if θ < (column_totals votes N).getD j 0 / (column_totals votes N).sum
        then (column_totals votes N).getD j 0 else 0 := by
  obtain ⟨r, rest, rfl⟩ := List.exists_cons_of_ne_nil hne
  have hhead : ((r :: rest).headD []).length = N := hlen r (List.mem_cons_self r rest)
  simp only [threshold_elimination_totals]
  rw [hhead]
  rw [if_neg (by push_neg; exact ⟨by simp, fun _ => ne_of_gt hT⟩)]
  refine ⟨_, rfl, by simp, ?_⟩
  intro j hj
  rw [getD_range_map _ _ _ _ hj]
  have hjl : j < (column_totals (r :: rest) N).length := by
    simp [column_totals, hj]
  rw [getD_map_div _ _ _ hjl]

/-- Witness for C4 at the spec's example: national totals
`[500, 300, 200]` with threshold `0.25`. -/
theorem threshold_elimination_totals_spec_witness :
    ∃ l, threshold_elimination_totals [[500, 300, 200]] (1/4) = some l ∧
      l.length = 3 ∧
      ∀ j < 3, l.getD j 0 =
        if (1/4 : ℚ) < (column_totals [[500, 300, 200]] 3).getD j 0 /
            (column_totals [[500, 300, 200]] 3).sum
        then (column_totals [[500, 300, 200]] 3).getD j 0 else 0 :=
  threshold_elimination_totals_spec [[500, 300, 200]] (1/4) 3 (by simp)
    (by intro r hr; rw [List.mem_singleton] at hr; rw [hr]; rfl)
    (by norm_num [column_totals, List.range_succ])

/-! ## Claim C6: zero grand total is fatal -/

/-- C6. On a valid votes matrix (rows of length `N > 0`) whose grand
total of votes is 0, both threshold-elimination entry points fail with an
uncaught error (`none`) and produce no result: the zero total is not
treated as passing a zero threshold.  (The empty votes list also fails,
via `votes[0]`.) -/
theorem threshold_zero_total_fatal (votes : List (List ℚ)) (θ : ℚ)
    (ps : Option (List ℕ)) (pm : Option (List (List ℕ))) (N : ℕ) (hN : 0 < N)
    (hlen : ∀ r ∈ votes, r.length = N)
    (hz : (votes.map List.sum).sum = 0) :
    threshold_elimination_totals votes θ = none ∧
    threshold_elimination_constituencies votes θ ps pm = none := by
  cases votes with
  | nil =>
      constructor
      · simp [threshold_elimination_totals]
      · simp [threshold_elimination_constituencies]
  | cons r rest =>
      have hlen' : ∀ x ∈ r :: rest, x.length = N := hlen
      have hhead : ((r :: rest).headD []).length = N :=
        hlen' r (List.mem_cons_self r rest)
      have hsum : (column_totals (r :: rest) N).sum = 0 := by
        rw [column_totals_sum _ _ hlen', hz]
      constructor
      · simp only [threshold_elimination_totals]
        rw [hhead, if_pos (Or.inr ⟨by omega, hsum⟩)]
      · simp only [threshold_elimination_constituencies]
        rw [hhead, if_pos (Or.inr ⟨by omega, hsum⟩)]

/-- Witness for C6: the all-zero 1×2 votes matrix fails in both entry
points. -/
theorem threshold_zero_total_fatal_witness :
    threshold_elimination_totals [[0, 0]] (3/10) = none ∧
    threshold_elimination_constituencies [[0, 0]] (3/10) none none = none :=
  threshold_zero_total_fatal [[0, 0]] (3/10) none none 2 (by norm_num)
    (by intro r hr; rw [List.mem_singleton] at hr; rw [hr]; rfl) (by norm_num)

/-! ## Claim C8: second elimination pass against satisfied entitlements -/

theorem getD_map_eq {α β : Type} (L : List α) (f : α → β) (dα : α) (dβ : β)
    (i : ℕ) (hi : i < L.length) :
    (L.map f).getD i dβ = f (L.getD i dα) := by
  rw [List.getD_eq_getElem _ _ (by simpa using hi), List.getElem_map,
    List.getD_eq_getElem _ _ hi]

/-- C8. When `threshold_elimination_constituencies` receives nonempty
`party_seats` and `priors`, a party whose prior allocations summed over
the constituencies equal its `party_seats` entry (its national
entitlement is fully satisfied) has its votes zeroed in every
constituency of the result, and every other party keeps exactly its
threshold-surviving votes (the first-pass entries). -/
theorem tec_party_seats_filter (votes : List (List ℚ)) (θ : ℚ) (N : ℕ)
    (ps : List ℕ) (pm : List (List ℕ))
    (hne : votes ≠ []) (hlen : ∀ r ∈ votes, r.length = N)
    (hT : (column_totals votes N).sum ≠ 0)
    (hps : ps ≠ []) (hpm : pm ≠ []) :
    ∃ m1 m2,
      threshold_elimination_constituencies votes θ none none = some m1 ∧
      threshold_elimination_constituencies votes θ (some ps) (some pm) = some m2 ∧
      m2.length = votes.length ∧
      ∀ i < votes.length, ∀ j < N,
        ((pm.map (fun m => m.getD j 0)).sum = ps.getD j 0 →
          (m2.getD i []).getD j 0 = 0) ∧
        ((pm.map (fun m => m.getD j 0)).sum ≠ ps.getD j 0 →
          (m2.getD i []).getD j 0 = (m1.getD i []).getD j 0) := by
  obtain ⟨r, rest, rfl⟩ := List.exists_cons_of_ne_nil hne
  have hhead : ((r :: rest).headD []).length = N := hlen r (List.mem_cons_self r rest)
  have hcond : ¬((r :: rest) = [] ∨ (N ≠ 0 ∧ (column_totals (r :: rest) N).sum = 0)) := by
    rintro (h | ⟨-, h⟩)
    · exact List.cons_ne_nil r rest h
    · exact hT h
  have hpp : ¬(ps = [] ∨ pm = []) := by
    rintro (h | h)
    · exact hps h
    · exact hpm h
  simp only [threshold_elimination_constituencies]
  rw [hhead]
  rw [if_neg hcond]
  rw [if_neg hpp]
  rw [if_neg hcond]
  refine ⟨_, _, rfl, rfl, by simp, ?_⟩
  intro i hi j hj
  have hi1 : i < ((r :: rest).map (fun c =>
      (List.range N).map
        (fun k => if θ < ((column_totals (r :: rest) N).map
            (fun t => t / (column_totals (r :: rest) N).sum)).getD k 0
          then c.getD k 0 else 0))).length := by simpa using hi
  rw [getD_map_eq _ _ [] [] i hi1, getD_range_map _ _ _ _ hj]
  constructor
  · intro hsat
    rw [if_pos hsat.symm]
  · intro hnot
    rw [if_neg (fun h => hnot h.symm)]

/-- Witness for C8: votes `[[10, 20]]`, threshold 0, `party_seats =
[1, 1]`, priors `[[1, 0]]`: party 0's entitlement is already met (prior
sum 1 = 1), party 1's is not (0 ≠ 1). -/
theorem tec_party_seats_filter_witness :
    ∃ m1 m2,
      threshold_elimination_constituencies [[10, 20]] 0 none none = some m1 ∧
      threshold_elimination_constituencies [[10, 20]] 0 (some [1, 1])
        (some [[1, 0]]) = some m2 ∧
      m2.length = ([[10, 20]] : List (List ℚ)).length ∧
      ∀ i < ([[10, 20]] : List (List ℚ)).length, ∀ j < 2,
        ((([[1, 0]] : List (List ℕ)).map (fun m => m.getD j 0)).sum =
            ([1, 1] : List ℕ).getD j 0 →
          (m2.getD i []).getD j 0 = 0) ∧
        ((([[1, 0]] : List (List ℕ)).map (fun m => m.getD j 0)).sum ≠
            ([1, 1] : List ℕ).getD j 0 →
          (m2.getD i []).getD j 0 = (m1.getD i []).getD j 0) :=
  tec_party_seats_filter [[10, 20]] 0 2 [1, 1] [[1, 0]] (by simp)
    (by intro r hr; rw [List.mem_singleton] at hr; rw [hr]; rfl)
    (by norm_num [column_totals, List.range_succ]) (by simp) (by simp)

/-! ## Claim C5: idempotence of per-constituency threshold elimination -/

/-- Counterexample to C5 as stated: votes `[[1, 1]]` with threshold
`0.5 ∈ [0,1]`.  One application succeeds and eliminates both parties
(shares are exactly `0.5`, not strictly above), but applying the function
again to the result divides by the new zero grand total and fails — so
twice is `none` while once is `some [[0, 0]]`. -/
theorem tec_idempotent_counterexample :
    threshold_elimination_constituencies [[1, 1]] (1/2) none none = some [[0, 0]] ∧
    (threshold_elimination_constituencies [[1, 1]] (1/2) none none).bind
      (fun m => threshold_elimination_constituencies m (1/2) none none) = none := by
  have h1 : threshold_elimination_constituencies [[1, 1]] (1/2) none none
      = some [[0, 0]] := by
    norm_num [threshold_elimination_constituencies, column_totals, List.range_succ]
  refine ⟨h1, ?_⟩
  rw [h1]
  norm_num [threshold_elimination_constituencies, column_totals, List.range_succ]
  intro h
  simp at h

theorem getD_nonneg (r : List ℚ) (h : ∀ x ∈ r, 0 ≤ x) (j : ℕ) : 0 ≤ r.getD j 0 := by
  by_cases hj : j < r.length
  · rw [List.getD_eq_getElem _ _ hj]
    exact h _ (List.getElem_mem hj)
  · rw [List.getD_eq_default _ _ (le_of_not_lt hj)]

theorem column_totals_eq (votes : List (List ℚ)) (N : ℕ) :
    column_totals votes N =
      (List.range N).map (fun i => (votes.map (fun x => x.getD i 0)).sum) := rfl

theorem column_totals_length (votes : List (List ℚ)) (N : ℕ) :
    (column_totals votes N).length = N := by
  rw [column_totals_eq]
  simp

theorem column_totals_nonneg (votes : List (List ℚ)) (N : ℕ)
    (hnn : ∀ r ∈ votes, ∀ x ∈ r, 0 ≤ x) :
    ∀ x ∈ column_totals votes N, 0 ≤ x := by
  intro x hx
  rw [column_totals_eq] at hx
  rcases List.mem_map.1 hx with ⟨i, -, rfl⟩
  apply List.sum_nonneg
  intro y hy
  rcases List.mem_map.1 hy with ⟨rr, hrr, rfl⟩
  exact getD_nonneg rr (hnn rr hrr) i

theorem sum_getD_le (A B : List ℚ) (hA : A.length = B.length)
    (h : ∀ j < A.length, A.getD j 0 ≤ B.getD j 0) : A.sum ≤ B.sum := by
  induction A generalizing B with
  | nil =>
      cases B with
      | nil => simp
      | cons b B => simp at hA
  | cons a A ih =>
      cases B with
      | nil => simp at hA
      | cons b B =>
          simp only [List.sum_cons]
          have h0 : a ≤ b := h 0 (by simp)
          refine add_le_add h0 (ih B (by simpa using hA) ?_)
          intro j hj
          simpa using h (j + 1) (by simpa using hj)

theorem sum_getD_pos (A : List ℚ) (hnn : ∀ x ∈ A, 0 ≤ x) (j : ℕ) (hj : j < A.length)
    (hpos : 0 < A.getD j 0) : 0 < A.sum := by
  have hmem : A.getD j 0 ∈ A := by
    rw [List.getD_eq_getElem _ _ hj]
    exact List.getElem_mem hj
  exact lt_of_lt_of_le hpos (List.single_le_sum hnn _ hmem)

/-- C5 (amended). On a valid non-negative votes matrix, with a
threshold `θ ∈ [0, 1]` (only `0 ≤ θ` is needed), the per-constituency
threshold elimination is idempotent **provided at least one party's share
is strictly above the threshold**: applying it twice yields the same
matrix as applying it once.  (When the first pass eliminates every party
the second application fails on the zero grand total — see the
counterexample — so the proviso is necessary.) -/
theorem tec_idempotent (votes : List (List ℚ)) (θ : ℚ) (N : ℕ)
    (hne : votes ≠ []) (hlen : ∀ r ∈ votes, r.length = N)
    (hnn : ∀ r ∈ votes, ∀ x ∈ r, 0 ≤ x) (hθ : 0 ≤ θ)
    (hsurv : ∃ j, j < N ∧
      θ < (column_totals votes N).getD j 0 / (column_totals votes N).sum) :
    ∃ m1, threshold_elimination_constituencies votes θ none none = some m1 ∧
      threshold_elimination_constituencies m1 θ none none = some m1 := by
  obtain ⟨r, rest, rfl⟩ := List.exists_cons_of_ne_nil hne
  obtain ⟨j0, hj0, hsh⟩ := hsurv
  have hhead : ((r :: rest).headD []).length = N := hlen r (List.mem_cons_self r rest)
  have htnn : ∀ x ∈ column_totals (r :: rest) N, 0 ≤ x := column_totals_nonneg _ _ hnn
  have htj : ∀ j, 0 ≤ (column_totals (r :: rest) N).getD j 0 :=
    fun j => getD_nonneg _ htnn j
  have hTnn : 0 ≤ (column_totals (r :: rest) N).sum := List.sum_nonneg htnn
  have hT : 0 < (column_totals (r :: rest) N).sum := by
    rcases lt_or_eq_of_le hTnn with h | h
    · exact h
    · exfalso
      rw [← h, div_zero] at hsh
      exact absurd hsh (not_lt.2 hθ)
  have hcond : ¬((r :: rest) = [] ∨ (N ≠ 0 ∧ (column_totals (r :: rest) N).sum = 0)) := by
    rintro (h | ⟨-, h⟩)
    · exact List.cons_ne_nil r rest h
    · rw [h] at hT
      exact lt_irrefl 0 hT
  -- the first application and its value
  refine ⟨(r :: rest).map (fun c =>
      (List.range N).map (fun i =>
        if θ < ((column_totals (r :: rest) N).map
            (fun t => t / (column_totals (r :: rest) N).sum)).getD i 0
        then c.getD i 0 else 0)), ?_, ?_⟩
  · simp only [threshold_elimination_constituencies]
    rw [hhead, if_neg hcond]
  -- facts about the once-eliminated matrix m1
  · have hpassD : ∀ i, i < N →
        ((column_totals (r :: rest) N).map
          (fun t => t / (column_totals (r :: rest) N).sum)).getD i 0 =
        (column_totals (r :: rest) N).getD i 0 / (column_totals (r :: rest) N).sum := by
      intro i hi
      exact getD_map_div _ _ _ (by rw [column_totals_length]; exact hi)
    have hm1head : ((((r :: rest).map (fun c =>
        (List.range N).map (fun i =>
          if θ < ((column_totals (r :: rest) N).map
              (fun t => t / (column_totals (r :: rest) N).sum)).getD i 0
          then c.getD i 0 else 0))).headD []).length) = N := by
      simp
    have hcolm1 : ∀ j, j < N →
        (column_totals ((r :: rest).map (fun c =>
          (List.range N).map (fun i =>
            if θ < ((column_totals (r :: rest) N).map
                (fun t => t / (column_totals (r :: rest) N).sum)).getD i 0
            then c.getD i 0 else 0))) N).getD j 0 =
        (if θ < (column_totals (r :: rest) N).getD j 0 /
            (column_totals (r :: rest) N).sum
         then (column_totals (r :: rest) N).getD j 0 else 0) := by
      intro j hj
      rw [column_totals_eq, getD_range_map _ _ _ _ hj, List.map_map]
      have hcongr : ∀ c ∈ r :: rest,
          ((fun x => x.getD j 0) ∘ (fun c =>
            (List.range N).map (fun i =>
              if θ < ((column_totals (r :: rest) N).map
                  (fun t => t / (column_totals (r :: rest) N).sum)).getD i 0
              then c.getD i 0 else 0))) c =
          (if θ < (column_totals (r :: rest) N).getD j 0 /
              (column_totals (r :: rest) N).sum
           then c.getD j 0 else 0) := by
        intro c _
        simp only [Function.comp]
        rw [getD_range_map _ _ _ _ hj, hpassD j hj]
      rw [List.map_congr_left hcongr]
      by_cases hpass : θ < (column_totals (r :: rest) N).getD j 0 /
          (column_totals (r :: rest) N).sum
      · simp only [hpass, if_true]
        rw [column_totals_eq, getD_range_map _ _ _ _ hj]
      · simp only [hpass, if_false]
        simp
    have hm1nn : ∀ row ∈ (r :: rest).map (fun c =>
        (List.range N).map (fun i =>
          if θ < ((column_totals (r :: rest) N).map
              (fun t => t / (column_totals (r :: rest) N).sum)).getD i 0
          then c.getD i 0 else 0)), ∀ x ∈ row, 0 ≤ x := by
      intro row hrow x hx
      rcases List.mem_map.1 hrow with ⟨c, hc, rfl⟩
      rcases List.mem_map.1 hx with ⟨i, -, rfl⟩
      by_cases hp : θ < ((column_totals (r :: rest) N).map
          (fun t => t / (column_totals (r :: rest) N).sum)).getD i 0
      · simp only [hp, if_true]
        exact getD_nonneg c (hnn c hc) i
      · rw [if_neg hp]
  -- the grand total after one pass is positive and at most the original
    have hT1le : (column_totals ((r :: rest).map (fun c =>
        (List.range N).map (fun i =>
          if θ < ((column_totals (r :: rest) N).map
              (fun t => t / (column_totals (r :: rest) N).sum)).getD i 0
          then c.getD i 0 else 0))) N).sum ≤ (column_totals (r :: rest) N).sum := by
      apply sum_getD_le
      · rw [column_totals_length, column_totals_length]
      · intro j hj
        rw [column_totals_length] at hj
        rw [hcolm1 j hj]
        by_cases hpass : θ < (column_totals (r :: rest) N).getD j 0 /
            (column_totals (r :: rest) N).sum
        · simp only [hpass, if_true]
          exact le_rfl
        · simp only [hpass, if_false]
          exact htj j
    have htj0pos : 0 < (column_totals (r :: rest) N).getD j0 0 := by
      by_contra hle
      push_neg at hle
      have h0 : (column_totals (r :: rest) N).getD j0 0 = 0 := le_antisymm hle (htj j0)
      rw [h0, zero_div] at hsh
      exact absurd hsh (not_lt.2 hθ)
    have hT1pos : 0 < (column_totals ((r :: rest).map (fun c =>
        (List.range N).map (fun i =>
          if θ < ((column_totals (r :: rest) N).map
              (fun t => t / (column_totals (r :: rest) N).sum)).getD i 0
          then c.getD i 0 else 0))) N).sum := by
      apply sum_getD_pos _ (column_totals_nonneg _ _ hm1nn) j0
        (by rw [column_totals_length]; exact hj0)
      rw [hcolm1 j0 hj0]
      simp only [hsh, if_true]
      exact htj0pos
    have hcond1 : ¬(((r :: rest).map (fun c =>
        (List.range N).map (fun i =>
          if θ < ((column_totals (r :: rest) N).map
              (fun t => t / (column_totals (r :: rest) N).sum)).getD i 0
          then c.getD i 0 else 0)) = []) ∨
        (N ≠ 0 ∧ (column_totals ((r :: rest).map (fun c =>
          (List.range N).map (fun i =>
            if θ < ((column_totals (r :: rest) N).map
                (fun t => t / (column_totals (r :: rest) N).sum)).getD i 0
            then c.getD i 0 else 0))) N).sum = 0)) := by
      rintro (h | ⟨-, h⟩)
      · simp at h
      · rw [h] at hT1pos
        exact lt_irrefl 0 hT1pos
    simp only [threshold_elimination_constituencies]
    rw [hm1head, if_neg hcond1]
    refine congrArg some ?_
    -- every row is fixed by the second pass
    have hrowfix : ∀ row ∈ (r :: rest).map (fun c =>
        (List.range N).map (fun i =>
          if θ < ((column_totals (r :: rest) N).map
              (fun t => t / (column_totals (r :: rest) N).sum)).getD i 0
          then c.getD i 0 else 0)),
        (List.range N).map (fun i =>
          if θ < ((column_totals ((r :: rest).map (fun c =>
              (List.range N).map (fun i =>
                if θ < ((column_totals (r :: rest) N).map
                    (fun t => t / (column_totals (r :: rest) N).sum)).getD i 0
                then c.getD i 0 else 0))) N).map
              (fun t => t / (column_totals ((r :: rest).map (fun c =>
                (List.range N).map (fun i =>
                  if θ < ((column_totals (r :: rest) N).map
                      (fun t => t / (column_totals (r :: rest) N).sum)).getD i 0
                  then c.getD i 0 else 0))) N).sum)).getD i 0
          then row.getD i 0 else 0) = row := by
      intro row hrow
      rcases List.mem_map.1 hrow with ⟨c, hc, rfl⟩
      apply List.ext_getElem
      · simp
      · intro k h1 h2
        have hk : k < N := by simpa using h2
        rw [List.getElem_map, List.getElem_range]
        rw [List.getElem_map, List.getElem_range]
        have hp1D : ((column_totals ((r :: rest).map (fun c =>
            (List.range N).map (fun i =>
              if θ < ((column_totals (r :: rest) N).map
                  (fun t => t / (column_totals (r :: rest) N).sum)).getD i 0
              then c.getD i 0 else 0))) N).map
            (fun t => t / (column_totals ((r :: rest).map (fun c =>
              (List.range N).map (fun i =>
                if θ < ((column_totals (r :: rest) N).map
                    (fun t => t / (column_totals (r :: rest) N).sum)).getD i 0
                then c.getD i 0 else 0))) N).sum)).getD k 0 =
            (if θ < (column_totals (r :: rest) N).getD k 0 /
                (column_totals (r :: rest) N).sum
             then (column_totals (r :: rest) N).getD k 0 else 0) /
            (column_totals ((r :: rest).map (fun c =>
              (List.range N).map (fun i =>
                if θ < ((column_totals (r :: rest) N).map
                    (fun t => t / (column_totals (r :: rest) N).sum)).getD i 0
                then c.getD i 0 else 0))) N).sum := by
          rw [getD_map_div _ _ _ (by rw [column_totals_length]; exact hk),
            hcolm1 k hk]
        rw [hp1D, hpassD k hk]
        by_cases hpass : θ < (column_totals (r :: rest) N).getD k 0 /
            (column_totals (r :: rest) N).sum
        · simp only [hpass, if_true]
          have hpass1 : θ < (column_totals (r :: rest) N).getD k 0 /
              (column_totals ((r :: rest).map (fun c =>
                (List.range N).map (fun i =>
                  if θ < ((column_totals (r :: rest) N).map
                      (fun t => t / (column_totals (r :: rest) N).sum)).getD i 0
                  then c.getD i 0 else 0))) N).sum :=
            lt_of_lt_of_le hpass
              (div_le_div_of_nonneg_left (htj k) hT1pos hT1le)
          rw [if_pos hpass1, getD_range_map _ _ _ _ hk, hpassD k hk]
          simp only [hpass, if_true]
        · simp only [hpass, if_false]
          rw [zero_div, if_neg (not_lt.2 hθ)]
    calc ((r :: rest).map (fun c =>
          (List.range N).map (fun i =>
            if θ < ((column_totals (r :: rest) N).map
                (fun t => t / (column_totals (r :: rest) N).sum)).getD i 0
            then c.getD i 0 else 0))).map (fun row =>
          (List.range N).map (fun i =>
            if θ < ((column_totals ((r :: rest).map (fun c =>
                (List.range N).map (fun i =>
                  if θ < ((column_totals (r :: rest) N).map
                      (fun t => t / (column_totals (r :: rest) N).sum)).getD i 0
                  then c.getD i 0 else 0))) N).map
                (fun t => t / (column_totals ((r :: rest).map (fun c =>
                  (List.range N).map (fun i =>
                    if θ < ((column_totals (r :: rest) N).map
                        (fun t => t / (column_totals (r :: rest) N).sum)).getD i 0
                    then c.getD i 0 else 0))) N).sum)).getD i 0
            then row.getD i 0 else 0))
        = ((r :: rest).map (fun c =>
          (List.range N).map (fun i =>
            if θ < ((column_totals (r :: rest) N).map
                (fun t => t / (column_totals (r :: rest) N).sum)).getD i 0
            then c.getD i 0 else 0))).map id := List.map_congr_left hrowfix
      _ = _ := List.map_id _

/-- Witness for C5 (amended) at votes `[[500, 300, 200]]` with threshold
`0.25`: parties 0 and 1 pass, so elimination is idempotent there. -/
theorem tec_idempotent_witness :
    ∃ m1, threshold_elimination_constituencies [[500, 300, 200]] (1/4) none none
        = some m1 ∧
      threshold_elimination_constituencies m1 (1/4) none none = some m1 :=
  tec_idempotent [[500, 300, 200]] (1/4) 3 (by simp)
    (by intro r hr; rw [List.mem_singleton] at hr; rw [hr]; rfl)
    (by
      intro r hr x hx
      rw [List.mem_singleton] at hr
      rw [hr] at hx
      simp at hx
      rcases hx with rfl | rfl | rfl <;> norm_num)
    (by norm_num)
    ⟨0, by norm_num, by norm_num [column_totals, List.range_succ]⟩

/-! ## Claim C7: monotonicity in votes

The proof identifies the run of the allocation loop with the first `n`
elements of the linear order `pairBefore` on (contestant, seat-count)
pairs, and compares ranks in that order when one contestant's votes
increase. -/

theorem pairBefore_irrefl (q : ℕ → ℕ → ℚ) (a : ℕ × ℕ) : ¬ pairBefore q a a := by
  rintro (h | ⟨-, h | ⟨-, h⟩⟩)
  · exact lt_irrefl _ h
  · exact lt_irrefl _ h
  · exact lt_irrefl _ h

theorem pairBefore_trans (q : ℕ → ℕ → ℚ) {a b c : ℕ × ℕ}
    (h1 : pairBefore q a b) (h2 : pairBefore q b c) : pairBefore q a c := by
  rcases h1 with h1 | ⟨e1, l1⟩
  · rcases h2 with h2 | ⟨e2, l2⟩
    · exact Or.inl (lt_trans h2 h1)
    · exact Or.inl (by rw [← e2]; exact h1)
  · rcases h2 with h2 | ⟨e2, l2⟩
    · exact Or.inl (by rw [e1]; exact h2)
    · refine Or.inr ⟨e1.trans e2, ?_⟩
      rcases l1 with l1 | ⟨i1, k1⟩
      · rcases l2 with l2 | ⟨i2, k2⟩
        · exact Or.inl (lt_trans l1 l2)
        · exact Or.inl (by rw [← i2]; exact l1)
      · rcases l2 with l2 | ⟨i2, k2⟩
        · exact Or.inl (by rw [i1]; exact l2)
        · exact Or.inr ⟨i1.trans i2, lt_trans k1 k2⟩

theorem pairBefore_asymm (q : ℕ → ℕ → ℚ) {a b : ℕ × ℕ}
    (h : pairBefore q a b) : ¬ pairBefore q b a :=
  fun h2 => pairBefore_irrefl q a (pairBefore_trans q h h2)

theorem pairBefore_total (q : ℕ → ℕ → ℚ) {a b : ℕ × ℕ} (hne : a ≠ b) :
    pairBefore q a b ∨ pairBefore q b a := by
  rcases lt_trichotomy (q a.1 a.2) (q b.1 b.2) with h | h | h
  · exact Or.inr (Or.inl h)
  · rcases lt_trichotomy a.1 b.1 with h1 | h1 | h1
    · exact Or.inl (Or.inr ⟨h, Or.inl h1⟩)
    · rcases lt_trichotomy a.2 b.2 with h2 | h2 | h2
      · exact Or.inl (Or.inr ⟨h, Or.inr ⟨h1, h2⟩⟩)
      · exact absurd (Prod.ext h1 h2) hne
      · exact Or.inr (Or.inr ⟨h.symm, Or.inr ⟨h1.symm, h2⟩⟩)
    · exact Or.inr (Or.inr ⟨h.symm, Or.inl h1⟩)
  · exact Or.inl (Or.inl h)

theorem pairRank_lt (q : ℕ → ℕ → ℚ) (P n : ℕ) {a b : ℕ × ℕ}
    (ha : a ∈ pairU P n) (hab : pairBefore q a b) :
    pairRank q P n a < pairRank q P n b := by
  apply Finset.card_lt_card
  rw [Finset.ssubset_iff_of_subset]
  · refine ⟨a, ?_, ?_⟩
    · exact Finset.mem_filter.2 ⟨ha, hab⟩
    · intro hmem
      exact pairBefore_irrefl q a (Finset.mem_filter.1 hmem).2
  · intro x hx
    rw [Finset.mem_filter] at hx ⊢
    exact ⟨hx.1, pairBefore_trans q hx.2 hab⟩

theorem pairRank_card_le (q : ℕ → ℕ → ℚ) (P n t : ℕ) :
    ((pairU P n).filter (fun u => pairRank q P n u < t)).card ≤ t := by
  have h : ((pairU P n).filter (fun u => pairRank q P n u < t)).card ≤
      (Finset.range t).card := by
    apply Finset.card_le_card_of_injOn (pairRank q P n)
    · intro u hu
      exact Finset.mem_range.2 (Finset.mem_filter.1 hu).2
    · intro u hu w hw hr
      by_contra hne
      rcases pairBefore_total q hne with h1 | h1
      · have := pairRank_lt q P n (Finset.mem_filter.1 (Finset.mem_coe.1 hu)).1 h1
        omega
      · have := pairRank_lt q P n (Finset.mem_filter.1 (Finset.mem_coe.1 hw)).1 h1
        omega
  simpa using h

theorem q_antitone_le (q : ℕ → ℕ → ℚ) (hanti : ∀ j e, q j (e + 1) ≤ q j e)
    (j e f : ℕ) (h : e ≤ f) : q j f ≤ q j e := by
  obtain ⟨d, rfl⟩ := Nat.exists_eq_add_of_le h
  induction d with
  | zero => simp
  | succ d ih => exact le_trans (hanti j (e + d)) (ih (Nat.le_add_right e d))

theorem awarded_zero (q : ℕ → ℕ → ℚ) (P n : ℕ) :
    awarded P n (apIter q P 0) = ∅ := by
  ext u
  simp [awarded, apIter]

theorem awarded_succ (q : ℕ → ℕ → ℚ) (P n t : ℕ) (hP : 0 < P) (htn : t < n) :
    awarded P n (apIter q P (t + 1)) =
      insert (apSel q P (apIter q P t), apIter q P t (apSel q P (apIter q P t)))
        (awarded P n (apIter q P t)) := by
  ext u
  simp only [awarded, Finset.mem_filter, Finset.mem_insert, pairU,
    Finset.mem_product, Finset.mem_range, apIter]
  constructor
  · rintro ⟨⟨h1, h2⟩, hlt⟩
    by_cases hw : u.1 = apSel q P (apIter q P t)
    · rw [if_pos hw] at hlt
      rcases Nat.lt_succ_iff_lt_or_eq.1 hlt with hlt' | hEq
      · exact Or.inr ⟨⟨h1, h2⟩, hlt'⟩
      · left
        rw [← hw, ← hEq]
    · rw [if_neg hw] at hlt
      exact Or.inr ⟨⟨h1, h2⟩, hlt⟩
  · rintro (hEq | ⟨⟨h1, h2⟩, hlt⟩)
    · subst hEq
      refine ⟨⟨apSel_lt q P _ hP, ?_⟩, ?_⟩
      · exact lt_of_le_of_lt (apIter_le q P t _) htn
      · simp
    · refine ⟨⟨h1, h2⟩, ?_⟩
      by_cases hw : u.1 = apSel q P (apIter q P t)
      · rw [if_pos hw]
        omega
      · rw [if_neg hw]
        exact hlt

theorem pick_min (q : ℕ → ℕ → ℚ) (P : ℕ) (hP : 0 < P)
    (hanti : ∀ j e, q j (e + 1) ≤ q j e) (c : ℕ → ℕ) (u : ℕ × ℕ)
    (huP : u.1 < P) (hnot : ¬(u.2 < c u.1)) :
    (apSel q P c, c (apSel q P c)) = u ∨
      pairBefore q (apSel q P c, c (apSel q P c)) u := by
  by_cases hEq : (apSel q P c, c (apSel q P c)) = u
  · exact Or.inl hEq
  · right
    have hle : q u.1 u.2 ≤ q u.1 (c u.1) :=
      q_antitone_le q hanti u.1 (c u.1) u.2 (le_of_not_lt hnot)
    have hmax := apSel_is_max q P c hP u.1 huP
    rcases lt_or_eq_of_le (le_trans hle hmax) with h | h
    · exact Or.inl h
    · refine Or.inr ⟨h.symm, ?_⟩
      rcases lt_trichotomy (apSel q P c) u.1 with h1 | h1 | h1
      · exact Or.inl h1
      · refine Or.inr ⟨h1, ?_⟩
        have hcu : c (apSel q P c) ≤ u.2 := by
          rw [h1]
          exact le_of_not_lt hnot
        rcases lt_or_eq_of_le hcu with h2 | h2
        · exact h2
        · exact absurd (Prod.ext h1 h2) hEq
      · exfalso
        have hfirst := apSel_first q P c hP u.1 h1
        have hlt : q u.1 u.2 < q (apSel q P c) (c (apSel q P c)) :=
          lt_of_le_of_lt hle hfirst
        rw [h] at hlt
        exact lt_irrefl _ hlt

/-- After `t ≤ n` rounds the awarded pairs are exactly the `t` pairs of
smallest rank in the `pairBefore` order. -/
theorem awarded_eq_rank (q : ℕ → ℕ → ℚ) (P n : ℕ) (hP : 0 < P)
    (hanti : ∀ j e, q j (e + 1) ≤ q j e) :
    ∀ t, t ≤ n → awarded P n (apIter q P t) =
      (pairU P n).filter (fun u => pairRank q P n u < t) := by
  intro t
  induction t with
  | zero =>
      intro _
      rw [awarded_zero]
      ext u
      simp
  | succ t ih =>
      intro htn
      have ht : t < n := lt_of_lt_of_le (Nat.lt_succ_self t) htn
      have iht := ih (le_of_lt ht)
      rw [awarded_succ q P n t hP ht, iht]
      have hpickU : (apSel q P (apIter q P t),
          apIter q P t (apSel q P (apIter q P t))) ∈ pairU P n := by
        rw [pairU, Finset.mem_product]
        exact ⟨Finset.mem_range.2 (apSel_lt q P _ hP),
          Finset.mem_range.2 (lt_of_le_of_lt (apIter_le q P t _) ht)⟩
      have hpicknot : (apSel q P (apIter q P t),
          apIter q P t (apSel q P (apIter q P t))) ∉
          (pairU P n).filter (fun u => pairRank q P n u < t) := by
        rw [← iht]
        intro hmem
        have := (Finset.mem_filter.1 hmem).2
        exact lt_irrefl _ this
      have hmin : ∀ u ∈ pairU P n,
          u ∉ (pairU P n).filter (fun u => pairRank q P n u < t) →
          (apSel q P (apIter q P t), apIter q P t (apSel q P (apIter q P t))) = u ∨
            pairBefore q (apSel q P (apIter q P t),
              apIter q P t (apSel q P (apIter q P t))) u := by
        intro u hu hnotmem
        rw [← iht] at hnotmem
        have huP : u.1 < P := by
          rw [pairU, Finset.mem_product] at hu
          exact Finset.mem_range.1 hu.1
        have hnot : ¬(u.2 < apIter q P t u.1) := by
          intro hlt
          exact hnotmem (Finset.mem_filter.2 ⟨hu, hlt⟩)
        exact pick_min q P hP hanti (apIter q P t) u huP hnot
      have hrankpick : pairRank q P n (apSel q P (apIter q P t),
          apIter q P t (apSel q P (apIter q P t))) ≤ t := by
        have hsub : (pairU P n).filter (fun w => pairBefore q w
            (apSel q P (apIter q P t), apIter q P t (apSel q P (apIter q P t)))) ⊆
            (pairU P n).filter (fun u => pairRank q P n u < t) := by
          intro x hx
          rw [Finset.mem_filter] at hx
          by_contra hnotmem
          rcases hmin x hx.1 hnotmem with hEq | hbef
          · rw [hEq] at hx
            exact pairBefore_irrefl q x hx.2
          · exact pairBefore_asymm q hbef hx.2
        exact le_trans (Finset.card_le_card hsub) (pairRank_card_le q P n t)
      ext u
      rw [Finset.mem_insert, Finset.mem_filter, Finset.mem_filter]
      constructor
      · rintro (hEq | ⟨hu, hr⟩)
        · subst hEq
          exact ⟨hpickU, lt_of_le_of_lt hrankpick (Nat.lt_succ_self t)⟩
        · exact ⟨hu, lt_trans hr (Nat.lt_succ_self t)⟩
      · rintro ⟨hu, hr⟩
        rcases Nat.lt_succ_iff_lt_or_eq.1 hr with hr' | hr'
        · exact Or.inr ⟨hu, hr'⟩
        · left
          by_contra hne
          have hnotmem : u ∉ (pairU P n).filter (fun w => pairRank q P n w < t) := by
            intro hmem
            have := (Finset.mem_filter.1 hmem).2
            omega
          rcases hmin u hu hnotmem with hEq | hbef
          · exact hne hEq.symm
          · have := pairRank_lt q P n hpickU hbef
            have hpickmem : (apSel q P (apIter q P t),
                apIter q P t (apSel q P (apIter q P t))) ∈
                (pairU P n).filter (fun w => pairRank q P n w < t) :=
              Finset.mem_filter.2 ⟨hpickU, by omega⟩
            exact hpicknot hpickmem

/-- The final seat count of contestant `i` equals the number of counts
`e` whose pair `(i, e)` ranks among the first `n` in the order. -/
theorem apIter_count (q : ℕ → ℕ → ℚ) (P n : ℕ) (hP : 0 < P)
    (hanti : ∀ j e, q j (e + 1) ≤ q j e) (i : ℕ) (hi : i < P) :
    apIter q P n i =
      ((Finset.range n).filter (fun e => pairRank q P n (i, e) < n)).card := by
  have hchar := awarded_eq_rank q P n hP hanti n le_rfl
  have h1 : (Finset.range n).filter (fun e => pairRank q P n (i, e) < n) =
      (Finset.range n).filter (fun e => e < apIter q P n i) := by
    ext e
    simp only [Finset.mem_filter, Finset.mem_range]
    constructor
    · rintro ⟨hen, hr⟩
      have hmem : (i, e) ∈ (pairU P n).filter (fun u => pairRank q P n u < n) :=
        Finset.mem_filter.2 ⟨by
          rw [pairU, Finset.mem_product]
          exact ⟨Finset.mem_range.2 hi, Finset.mem_range.2 hen⟩, hr⟩
      rw [← hchar] at hmem
      exact ⟨hen, (Finset.mem_filter.1 hmem).2⟩
    · rintro ⟨hen, hc⟩
      have hmem : (i, e) ∈ awarded P n (apIter q P n) :=
        Finset.mem_filter.2 ⟨by
          rw [pairU, Finset.mem_product]
          exact ⟨Finset.mem_range.2 hi, Finset.mem_range.2 hen⟩, hc⟩
      rw [hchar] at hmem
      exact ⟨hen, (Finset.mem_filter.1 hmem).2⟩
  rw [h1]
  have hle : apIter q P n i ≤ n := apIter_le q P n i
  have h2 : (Finset.range n).filter (fun e => e < apIter q P n i) =
      Finset.range (apIter q P n i) := by
    ext e
    simp only [Finset.mem_filter, Finset.mem_range]
    omega
  rw [h2, Finset.card_range]

theorem pairBefore_row_iff (q : ℕ → ℕ → ℚ)
    (hanti : ∀ j e, q j (e + 1) ≤ q j e) (i e c : ℕ) :
    pairBefore q (i, e) (i, c) ↔ e < c := by
  constructor
  · rintro (h | ⟨-, h1 | ⟨-, h2⟩⟩)
    · by_contra hce
      push_neg at hce
      exact absurd h (not_lt.2 (q_antitone_le q hanti i c e hce))
    · exact absurd h1 (lt_irrefl i)
    · exact h2
  · intro h
    rcases lt_or_eq_of_le (q_antitone_le q hanti i e c (le_of_lt h)) with h1 | h1
    · exact Or.inl h1
    · exact Or.inr ⟨h1.symm, Or.inr ⟨rfl, h⟩⟩

theorem pairRank_compare (q q' : ℕ → ℕ → ℚ) (P n i : ℕ)
    (hanti : ∀ j e, q j (e + 1) ≤ q j e) (hanti2 : ∀ j e, q' j (e + 1) ≤ q' j e)
    (hoff : ∀ j, j ≠ i → ∀ e, q' j e = q j e) (hup : ∀ e, q i e ≤ q' i e)
    (c : ℕ) :
    pairRank q' P n (i, c) ≤ pairRank q P n (i, c) := by
  apply Finset.card_le_card
  intro w hw
  rw [Finset.mem_filter] at hw ⊢
  refine ⟨hw.1, ?_⟩
  have hb := hw.2
  by_cases hwi : w.1 = i
  · have hwpair : w = (i, w.2) := Prod.ext hwi rfl
    rw [hwpair] at hb ⊢
    exact (pairBefore_row_iff q hanti i w.2 c).2
      ((pairBefore_row_iff q' hanti2 i w.2 c).1 hb)
  · rcases hb with h | ⟨he, hlex⟩
    · left
      calc q i c ≤ q' i c := hup c
        _ < q' w.1 w.2 := h
        _ = q w.1 w.2 := hoff w.1 hwi w.2
    · have hqw : q w.1 w.2 = q' i c := by
        rw [← hoff w.1 hwi w.2]
        exact he
      rcases lt_or_eq_of_le (hup c) with h1 | h1
      · left
        rw [hqw]
        exact h1
      · exact Or.inr ⟨hqw.trans h1.symm, hlex⟩

/-- Abstract monotonicity: raising one contestant's quotients (leaving
all others unchanged) never lowers its seat count after `n` rounds. -/
theorem apIter_mono (q q' : ℕ → ℕ → ℚ) (P n i : ℕ) (hP : 0 < P) (hi : i < P)
    (hanti : ∀ j e, q j (e + 1) ≤ q j e) (hanti2 : ∀ j e, q' j (e + 1) ≤ q' j e)
    (hoff : ∀ j, j ≠ i → ∀ e, q' j e = q j e) (hup : ∀ e, q i e ≤ q' i e) :
    apIter q P n i ≤ apIter q' P n i := by
  rw [apIter_count q P n hP hanti i hi, apIter_count q' P n hP hanti2 i hi]
  apply Finset.card_le_card
  intro e he
  rw [Finset.mem_filter] at he ⊢
  exact ⟨he.1, lt_of_le_of_lt
    (pairRank_compare q q' P n i hanti hanti2 hoff hup e) he.2⟩

theorem quotAt_antitone (v : List ℚ) (g : ℕ → ℚ) (hnn : ∀ x ∈ v, 0 ≤ x)
    (hg1 : ∀ k, 1 ≤ k → 1 ≤ g k) (hgm : ∀ k, 1 ≤ k → g k ≤ g (k + 1)) :
    ∀ j e, quotAt v g j (e + 1) ≤ quotAt v g j e := by
  intro j e
  have hv0 : 0 ≤ v.getD j 0 := getD_nonneg v hnn j
  cases e with
  | zero =>
      show (if (1 : ℕ) = 0 then v.getD j 0 else v.getD j 0 / g 1) ≤ _
      rw [if_neg (Nat.one_ne_zero)]
      exact div_le_self hv0 (hg1 1 le_rfl)
  | succ e =>
      simp only [quotAt, Nat.succ_ne_zero, if_false]
      have hpos : 0 < g (e + 1) := lt_of_lt_of_le zero_lt_one (hg1 (e + 1) (by omega))
      exact div_le_div_of_nonneg_left hv0 hpos (hgm (e + 1) (by omega))

/-- C7. `constituency_seat_allocation` is monotonic in votes: with a
(weakly increasing, ≥ 1) divisor stream such as the three configured
generators, increasing contestant `i`'s votes while holding every other
vote and the seat count fixed never decreases the number of seats awarded
to contestant `i`. -/
theorem csa_monotone (v v' : List ℚ) (g : ℕ → ℚ) (n i : ℕ)
    (hlen : v'.length = v.length) (hi : i < v.length)
    (hnn : ∀ x ∈ v, 0 ≤ x)
    (hup : v.getD i 0 ≤ v'.getD i 0)
    (hoff : ∀ j, j ≠ i → v'.getD j 0 = v.getD j 0)
    (hg1 : ∀ k, 1 ≤ k → 1 ≤ g k) (hgm : ∀ k, 1 ≤ k → g k ≤ g (k + 1)) :
    (constituency_seat_allocation v n g).2.count i ≤
      (constituency_seat_allocation v' n g).2.count i := by
  have hv : v ≠ [] := by
    intro h
    rw [h] at hi
    simp at hi
  have hv' : v' ≠ [] := by
    intro h
    rw [h] at hlen
    simp at hlen
    omega
  have hP : 0 < v.length := List.length_pos.2 hv
  have hnn' : ∀ x ∈ v', 0 ≤ x := by
    intro x hx
    obtain ⟨k, hk, rfl⟩ := List.mem_iff_getElem.1 hx
    have : v'[k] = v'.getD k 0 := (List.getD_eq_getElem v' 0 hk).symm
    rw [this]
    by_cases hki : k = i
    · rw [hki]
      exact le_trans (getD_nonneg v hnn i) hup
    · rw [hoff k hki]
      exact getD_nonneg v hnn k
  have hb := (allocIter_bridge v g hv n).2.2 i
  have hb' := (allocIter_bridge v' g hv' n).2.2 i
  show (allocIter v g n).seats.count i ≤ (allocIter v' g n).seats.count i
  rw [hb, hb', hlen]
  apply apIter_mono (quotAt v g) (quotAt v' g) v.length n i hP hi
  · exact quotAt_antitone v g hnn hg1 hgm
  · exact quotAt_antitone v' g hnn' hg1 hgm
  · intro j hj e
    simp only [quotAt, hoff j hj]
  · intro e
    cases e with
    | zero => exact hup
    | succ e =>
        simp only [quotAt, Nat.succ_ne_zero, if_false]
        have hpos : 0 < g (e + 1) := lt_of_lt_of_le zero_lt_one (hg1 (e + 1) (by omega))
        exact (div_le_div_iff_of_pos_right hpos).2 hup

/-- Witness for C7: raising contestant 0's votes from 1 to 3 (other
contestant fixed at 2, one seat, d'Hondt) does not decrease its seats. -/
theorem csa_monotone_witness :
    (constituency_seat_allocation [1, 2] 1 dhondt_gen).2.count 0 ≤
      (constituency_seat_allocation [3, 2] 1 dhondt_gen).2.count 0 :=
  csa_monotone [1, 2] [3, 2] dhondt_gen 1 0 rfl (by norm_num)
    (by
      intro x hx
      simp at hx
      rcases hx with rfl | rfl <;> norm_num)
    (by norm_num)
    (by
      intro j hj
      match j, hj with
      | 1, _ => rfl
      | (k + 2), _ => rfl)
    (by
      intro k _
      have : (0 : ℚ) ≤ (k : ℚ) := Nat.cast_nonneg k
      simp only [dhondt_gen]
      linarith)
    (by
      intro k _
      simp only [dhondt_gen]
      push_cast
      linarith)

/-! ## Claim C10: state across two `run()` invocations -/

/-- C10 (amended). Rerunning `run()` on the same `Election` instance
recomputes every derived structure — allocation matrix, eliminated-vote
structures, adjustment-seat entitlement vector, results — to exactly its
first-run value (they are functions of the unchanged `m_votes` and
`rules` only), **but** the per-constituency seat-order record list
`self.order` is initialised in `__init__` and only appended to, so the
second `run()` appends a second copy: afterwards `order` equals its
first-run value concatenated with itself, not its first-run value. -/
theorem election_run_rerun (rules : ElectionRules) (votes : List (List ℚ))
    (e1 : Election) (h : Election.run (Election.new rules votes) = some e1) :
    ∃ e2, Election.run e1 = some e2 ∧
      e2.m_votes = e1.m_votes ∧
      e2.m_allocations = e1.m_allocations ∧
      e2.v_cur_allocations = e1.v_cur_allocations ∧
      e2.v_total_seats = e1.v_total_seats ∧
      e2.total_seats = e1.total_seats ∧
      e2.v_votes_eliminated = e1.v_votes_eliminated ∧
      e2.m_votes_eliminated = e1.m_votes_eliminated ∧
      e2.v_adjustment_seats = e1.v_adjustment_seats ∧
      e2.results = e1.results ∧
      e2.order = e1.order ++ e1.order := by
  simp only [Election.run, Election.new] at h
  cases htet : threshold_elimination_totals votes rules.adjustment_threshold with
  | none =>
      rw [htet] at h
      simp at h
  | some v_elim =>
      cases htec : threshold_elimination_constituencies votes
          rules.adjustment_threshold none none with
      | none =>
          rw [htet, htec] at h
          simp at h
      | some m_elim =>
          rw [htet, htec] at h
          rw [Option.some.injEq] at h
          subst h
          simp only [Election.run]
          rw [htet, htec]
          exact ⟨_, rfl, rfl, rfl, rfl, rfl, rfl, rfl, rfl, rfl, rfl, rfl⟩

/-- Witness for C10 (amended): a 1-constituency, 1-party election with
one constituency seat, no adjustment seats, threshold 0 and a trivial
adjustment method; after the first `run()` the state is the explicit
record below, and a second `run()` reproduces every derived field while
doubling `order`. -/
theorem election_run_rerun_witness :
    ∃ e2, Election.run
        { m_votes := [[1]],
          rules := ⟨dhondt_gen, dhondt_gen, 0, [1], [0], 1, fun _ _ _ a _ _ _ => a⟩,
          order := [[0]], m_allocations := [[1]], v_cur_allocations := [1],
          v_total_seats := [1], total_seats := 1, v_votes_eliminated := [1],
          m_votes_eliminated := [[1]], v_adjustment_seats := [2],
          results := [[1]] } = some e2 ∧
      e2.m_votes = Election.m_votes
        { m_votes := [[1]],
          rules := ⟨dhondt_gen, dhondt_gen, 0, [1], [0], 1, fun _ _ _ a _ _ _ => a⟩,
          order := [[0]], m_allocations := [[1]], v_cur_allocations := [1],
          v_total_seats := [1], total_seats := 1, v_votes_eliminated := [1],
          m_votes_eliminated := [[1]], v_adjustment_seats := [2],
          results := [[1]] } ∧
      e2.m_allocations = [[1]] ∧
      e2.v_cur_allocations = [1] ∧
      e2.v_total_seats = [1] ∧
      e2.total_seats = 1 ∧
      e2.v_votes_eliminated = [1] ∧
      e2.m_votes_eliminated = [[1]] ∧
      e2.v_adjustment_seats = [2] ∧
      e2.results = [[1]] ∧
      e2.order = [[0]] ++ [[0]] :=
  election_run_rerun
    ⟨dhondt_gen, dhondt_gen, 0, [1], [0], 1, fun _ _ _ a _ _ _ => a⟩ [[1]]
    { m_votes := [[1]],
      rules := ⟨dhondt_gen, dhondt_gen, 0, [1], [0], 1, fun _ _ _ a _ _ _ => a⟩,
      order := [[0]], m_allocations := [[1]], v_cur_allocations := [1],
      v_total_seats := [1], total_seats := 1, v_votes_eliminated := [1],
      m_votes_eliminated := [[1]], v_adjustment_seats := [2], results := [[1]] }
    (by norm_num [Election.run, Election.new, primary_apportionment,
      primary_seats_lists, constituency_seat_allocation, allocIter, allocRound,
      allocInit, pyMax, pyIndex, threshold_elimination_totals,
      threshold_elimination_constituencies, column_totals, apportion1d,
      ap1dStep, ap1dQuots, dhondt_gen, List.range_succ])

/-- Counterexample to C10 as stated: for the concrete election of the
witness, `order` (the per-constituency seat-order records) is `[[0]]`
after one `run()` but `[[0], [0]]` after calling `run()` a second time —
the record list accumulates instead of staying equal. -/
theorem election_order_counterexample :
    (Election.run (Election.new
        ⟨dhondt_gen, dhondt_gen, 0, [1], [0], 1, fun _ _ _ a _ _ _ => a⟩
        [[1]])).map Election.order = some [[0]] ∧
    ((Election.run (Election.new
        ⟨dhondt_gen, dhondt_gen, 0, [1], [0], 1, fun _ _ _ a _ _ _ => a⟩
        [[1]])).bind Election.run).map Election.order = some [[0], [0]] ∧
    ([[0], [0]] : List (List ℕ)) ≠ [[0]] := by
  have h1 : Election.run (Election.new
      ⟨dhondt_gen, dhondt_gen, 0, [1], [0], 1, fun _ _ _ a _ _ _ => a⟩ [[1]]) =
      some { m_votes := [[1]],
             rules := ⟨dhondt_gen, dhondt_gen, 0, [1], [0], 1, fun _ _ _ a _ _ _ => a⟩,
             order := [[0]], m_allocations := [[1]], v_cur_allocations := [1],
             v_total_seats := [1], total_seats := 1, v_votes_eliminated := [1],
             m_votes_eliminated := [[1]], v_adjustment_seats := [2],
             results := [[1]] } := by
    norm_num [Election.run, Election.new, primary_apportionment,
      primary_seats_lists, constituency_seat_allocation, allocIter, allocRound,
      allocInit, pyMax, pyIndex, threshold_elimination_totals,
      threshold_elimination_constituencies, column_totals, apportion1d,
      ap1dStep, ap1dQuots, dhondt_gen, List.range_succ]
  have h2 : Election.run
      { m_votes := [[1]],
        rules := ⟨dhondt_gen, dhondt_gen, 0, [1], [0], 1, fun _ _ _ a _ _ _ => a⟩,
        order := [[0]], m_allocations := [[1]], v_cur_allocations := [1],
        v_total_seats := [1], total_seats := 1, v_votes_eliminated := [1],
        m_votes_eliminated := [[1]], v_adjustment_seats := [2],
        results := [[1]] } =
      some { m_votes := [[1]],
             rules := ⟨dhondt_gen, dhondt_gen, 0, [1], [0], 1, fun _ _ _ a _ _ _ => a⟩,
             order := [[0], [0]], m_allocations := [[1]], v_cur_allocations := [1],
             v_total_seats := [1], total_seats := 1, v_votes_eliminated := [1],
             m_votes_eliminated := [[1]], v_adjustment_seats := [2],
             results := [[1]] } := by
    norm_num [Election.run, primary_apportionment, primary_seats_lists,
      constituency_seat_allocation, allocIter, allocRound, allocInit, pyMax,
      pyIndex, threshold_elimination_totals, threshold_elimination_constituencies,
      column_totals, apportion1d, ap1dStep, ap1dQuots, dhondt_gen, List.range_succ]
  refine ⟨?_, ?_, by simp⟩
  · rw [h1]
    rfl
  · rw [h1]
    show (Election.run _).map Election.order = _
    rw [h2]
    rfl
